import Mathlib

/-!
Verification of the markup translation subsystem of the `tkt` repository.

Two converter variants are embedded:

* `Mdconv` — the regex-pipeline converter (Go package `markdown`:
  `ConvertJiraToMarkdown`, `ConvertMarkdownToJira` and their helper passes).
  Strings are modelled as `List Char`; every Go regular expression is encoded
  as an explicit scanner with the leftmost-first (Perl-style) semantics that
  Go's `regexp` package implements.  All prefix literals used by this package
  are ASCII, so the rune-oriented `List Char` view agrees with Go's byte
  strings on every construct the package uses.

* `Jirawiki` — the tokenizing line parser (Go package `jirawiki`: `Parse`,
  `firstPass`, `secondPass`, `tokenize` and the token handlers).  This code
  mixes byte indexing and rune indexing, so strings are modelled as byte
  sequences `List Nat` with an explicit UTF-8 decoder.  Go's runtime panics
  (out-of-range slice or index) are modelled by an `Except` monad: every Go
  slice expression goes through a bounds-checked operation.

Scanners that do not structurally consume their input use an explicit fuel
argument; each wrapper passes fuel equal to the input length (plus a constant)
which is exact because every scanner step consumes at least one element, so
the fuel-exhaustion branches are unreachable on real executions.  The
`jirawiki.secondPass` line loop can jump backwards (its fenced-code handler
returns a token index as a line number), so in Go it can diverge; fuel
exhaustion there is reported as the distinguished error `GoErr.outOfFuel`,
distinct from the panic error `GoErr.panicRange`.
-/

namespace Tkt

/-- Go `strings.HasPrefix pat s` viewed from the pattern side: `pat` is a
prefix of `s`. -/
def leadMatch {α : Type} [DecidableEq α] : List α → List α → Bool
  | [], _ => true
  | _ :: _, [] => false
  | p :: ps, c :: cs => if p = c then leadMatch ps cs else false

/-- Go `strings.HasSuffix`: `pat` is a suffix of `s`. -/
def tailMatch {α : Type} [DecidableEq α] (pat s : List α) : Bool :=
  leadMatch pat.reverse s.reverse

/-- Go `strings.TrimPrefix`: drop `pat` from the front of `s` when it is a
prefix, otherwise return `s` unchanged. -/
def dropLead {α : Type} [DecidableEq α] (pat s : List α) : List α :=
  if leadMatch pat s then s.drop pat.length else s

/-- Fuelled body of Go `strings.ReplaceAll` (non-overlapping, leftmost).
Fuel equal to the input length is exact because each step consumes at least
one element; the fuel-zero branch returns the remainder unchanged and is
unreachable on real executions.  The sources only call this with a non-empty
pattern, which the guard enforces. -/
def replaceAllF {α : Type} [DecidableEq α] (pat rep : List α) : Nat → List α → List α
  | _, [] => []
  | 0, s => s
  | f + 1, c :: r =>
    if pat ≠ [] ∧ leadMatch pat (c :: r) = true then
      rep ++ replaceAllF pat rep f ((c :: r).drop pat.length)
    else
      c :: replaceAllF pat rep f r

/-- Go `strings.ReplaceAll old new` on `s` (with `pat` the old string). -/
def replaceAll {α : Type} [DecidableEq α] (pat rep s : List α) : List α :=
  replaceAllF pat rep s.length s

/-- Fuelled body of Go `strings.Split` with a non-empty separator
(non-overlapping, leftmost).  `Split "" sep = [""]` as in Go. -/
def splitOnTokF {α : Type} [DecidableEq α] (sep : List α) : Nat → List α → List (List α)
  | _, [] => [[]]
  | 0, s => [s]
  | f + 1, c :: r =>
    if sep ≠ [] ∧ leadMatch sep (c :: r) = true then
      [] :: splitOnTokF sep f ((c :: r).drop sep.length)
    else
      match splitOnTokF sep f r with
      | l :: ls => (c :: l) :: ls
      | [] => [[c]]

/-- Go `strings.Split s sep`. -/
def splitOnTok {α : Type} [DecidableEq α] (sep s : List α) : List (List α) :=
  splitOnTokF sep s.length s

/-- Go `strings.Join parts sep`. -/
def joinSep {α : Type} (sep : List α) : List (List α) → List α
  | [] => []
  | [l] => l
  | l :: ls => l ++ sep ++ joinSep sep ls

/-- Generic fuelled text scanner shared by the regex passes of the
`markdown` package.  At each position `try` either produces a replacement
for a leftmost match together with the rest of the input after the match, or
fails, in which case one character is emitted literally.  The boolean state
tracks whether the current position is at a line start (Go regexp `(?m)^`):
it is true initially and after each newline; a match never ends immediately
after a newline, so scanning resumes with the flag cleared. -/
def scanSt (try_ : Bool → List Char → Option (List Char × List Char)) :
    Nat → Bool → List Char → List Char
  | _, _, [] => []
  | 0, _, s => s
  | f + 1, a, c :: r =>
    match try_ a (c :: r) with
    | some (repl, rest) => repl ++ scanSt try_ f false rest
    | none => c :: scanSt try_ f (c == '\n') r

/-- Split `s` as `pre ++ pat ++ post` at the first occurrence of `pat`,
returning `(pre, post)`; `none` when `pat` does not occur. -/
def findSplit {α : Type} [DecidableEq α] (pat : List α) : List α → Option (List α × List α)
  | [] => if leadMatch pat [] then some ([], []) else none
  | c :: rest =>
    if leadMatch pat (c :: rest) then some ([], (c :: rest).drop pat.length)
    else
      match findSplit pat rest with
      | some (pre, post) => some (c :: pre, post)
      | none => none

/-- Unicode white space as recognised by Go's `unicode.IsSpace` (the
`White_Space` property), on code points. -/
def isSpaceRune (r : Nat) : Bool :=
  r = 9 ∨ r = 10 ∨ r = 11 ∨ r = 12 ∨ r = 13 ∨ r = 32 ∨
  r = 0x85 ∨ r = 0xA0 ∨ r = 0x1680 ∨ (0x2000 ≤ r ∧ r ≤ 0x200A) ∨
  r = 0x2028 ∨ r = 0x2029 ∨ r = 0x202F ∨ r = 0x205F ∨ r = 0x3000

/-- Go `unicode.IsSpace` on a `Char`. -/
def isGoSpace (c : Char) : Bool := isSpaceRune c.toNat

/-- Go `strings.TrimSpace` on the `List Char` view of a string. -/
def trimSpaceGo (s : List Char) : List Char :=
  ((s.dropWhile isGoSpace).reverse.dropWhile isGoSpace).reverse

/-- Go `strings.Trim s cutset`: remove leading and trailing characters that
occur in `cut`. -/
def trimCut (cut s : List Char) : List Char :=
  ((s.dropWhile (fun c => cut.contains c)).reverse.dropWhile
    (fun c => cut.contains c)).reverse

/-- Character class of Go regexp `\s`, which in RE2 is exactly
`[\t\n\f\r ]`. -/
def isReSpace (c : Char) : Bool :=
  c = ' ' ∨ c = '\t' ∨ c = '\n' ∨ c = '\x0c' ∨ c = '\r'

end Tkt

namespace Mdconv

open Tkt

/-- Leftmost-first match of `\s+(.+)$` (multiline, `.` not matching `\n`)
against `t`, as Go's regexp engine resolves it: the greedy `\s+` consumes a
maximal run of `\s` characters and backtracks just enough for `(.+)$` to
match, i.e. the capture starts at the largest index `k ≥ 1` inside the
whitespace run such that the character at `k` exists and is not a newline.
Returns the capture and the rest of the input after the match. -/
def wsCapture (t : List Char) : Option (List Char × List Char) :=
  let w := (t.takeWhile isReSpace).length
  match backtrack t w with
  | some k =>
    let cap := (t.drop k).takeWhile (fun c => !(c = '\n'))
    some (cap, t.drop (k + cap.length))
  | none => none
where
  /-- Largest `k` in `[1, w]` such that `t.get? k` is a non-newline
  character. -/
  backtrack (t : List Char) : Nat → Option Nat
    | 0 => none
    | k + 1 =>
      match t.get? (k + 1) with
      | some c => if c = '\n' then backtrack t k else some (k + 1)
      | none => backtrack t k

/-- Single leftmost-first match attempt for the line-anchored pattern
`(?m)^TAG\s+(.+)$` with replacement `md ++ " $1"`; used by `convertHeadings`
(TAG one of `h1.` … `h6.`) and the `bq.` rule of `convertQuotes`.  The
`tag ≠ []` guard is vacuous for every call site (all tags are non-empty) and
only serves totality of the fuel argument. -/
def lineTagTry (tag md : List Char) (atStart : Bool) (s : List Char) :
    Option (List Char × List Char) :=
  if atStart ∧ tag ≠ [] ∧ leadMatch tag s = true then
    match wsCapture (s.drop tag.length) with
    | some (cap, post) => some (md ++ ' ' :: cap, post)
    | none => none
  else none

/-- One `(?m)^TAG\s+(.+)$` → `md $1` replacement pass over the whole text
(Go `regexp.ReplaceAllString`). -/
def lineTagPass (tag md s : List Char) : List Char :=
  scanSt (lineTagTry tag md) s.length true s

/-- Go `convertHeadings`: the six line-anchored replacements `h1.` → `#` …
`h6.` → `######`.  Go iterates the `headings` map in unspecified order; the
six patterns are mutually exclusive at any line start, and every theorem
below only uses inputs on which the passes are order-independent, so a fixed
`h1.` … `h6.` order is used here. -/
def convertHeadings (content : List Char) : List Char :=
  let c1 := lineTagPass ("h1.".toList) ("#".toList) content
  let c2 := lineTagPass ("h2.".toList) ("##".toList) c1
  let c3 := lineTagPass ("h3.".toList) ("###".toList) c2
  let c4 := lineTagPass ("h4.".toList) ("####".toList) c3
  let c5 := lineTagPass ("h5.".toList) ("#####".toList) c4
  lineTagPass ("h6.".toList) ("######".toList) c5

/-- Optional language group of `\{code(?::([^}]*))?\}`: given the text
following the literal `{code`, parse `:L}` (language `L` a maximal run of
non-`}` characters, possibly empty) or a bare `}`; Go's `parts[1]` is the
empty string both when the group is absent and when it captures nothing, and
the replacement only concatenates it, so the two cases coincide. -/
def codeLang : List Char → Option (List Char × List Char)
  | c :: t =>
    if c = ':' then
      let lang := t.takeWhile (fun x => !(x = '\x7d'))
      match t.drop lang.length with
      | d :: u => if d = '\x7d' then some (lang, u) else none
      | [] => none
    else if c = '\x7d' then some ([], t)
    else none
  | [] => none

/-- Single match attempt of `(?s)\{code(?::([^}]*))?\}(.*?)\{code\}` with
the replacement computed by the Go callback: fenced block with the language
tag and the `TrimSpace`d body. -/
def codeTry (_ : Bool) (s : List Char) : Option (List Char × List Char) :=
  if leadMatch ("\x7bcode".toList) s then
    match codeLang (s.drop 5) with
    | some (lang, afterHead) =>
      match findSplit ("\x7bcode\x7d".toList) afterHead with
      | some (body, post) =>
        some ("\x60\x60\x60".toList ++ lang ++ '\n' :: trimSpaceGo body ++
          "\n\x60\x60\x60".toList, post)
      | none => none
    | none => none
  else none

/-- Single match attempt of `(?s)\{noformat\}(.*?)\{noformat\}` with
replacement `"```\n$1\n```"` (no trimming). -/
def noformatTry (_ : Bool) (s : List Char) : Option (List Char × List Char) :=
  if leadMatch ("\x7bnoformat\x7d".toList) s then
    match findSplit ("\x7bnoformat\x7d".toList) (s.drop 10) with
    | some (body, post) =>
      some ("\x60\x60\x60\n".toList ++ body ++ "\n\x60\x60\x60".toList, post)
    | none => none
  else none

/-- Go `convertCodeBlocks`: the `{code}` pass followed by the `{noformat}`
pass. -/
def convertCodeBlocks (content : List Char) : List Char :=
  let c1 := scanSt codeTry content.length true content
  scanSt noformatTry c1.length true c1

/-- Go `convertLists`, per line.  Lines starting with `#` are passed through
by the first guard; the three ordered-list branches that follow test
`^# [^#]` etc. and are kept exactly as in the source even though every line
they could match is already caught by that guard. -/
def convertListsLine (line : List Char) : List Char :=
  if leadMatch ("#".toList) line then line
  else if leadMatch ("# ".toList) line ∧ (line.get? 2).any (fun c => !(c = '#')) then
    "1. ".toList ++ dropLead ("# ".toList) line
  else if leadMatch ("## ".toList) line ∧ (line.get? 3).any (fun c => !(c = '#')) then
    "   1. ".toList ++ dropLead ("## ".toList) line
  else if leadMatch ("### ".toList) line ∧ (line.get? 4).any (fun c => !(c = '#')) then
    "      1. ".toList ++ dropLead ("### ".toList) line
  else if leadMatch ("* ".toList) line then
    "- ".toList ++ dropLead ("* ".toList) line
  else if leadMatch ("** ".toList) line then
    "  - ".toList ++ dropLead ("** ".toList) line
  else if leadMatch ("*** ".toList) line then
    "    - ".toList ++ dropLead ("*** ".toList) line
  else line

/-- Go `convertLists`: split on `\n`, convert each line, join with `\n`. -/
def convertLists (content : List Char) : List Char :=
  joinSep ['\n'] ((splitOnTok ['\n'] content).map convertListsLine)

/-- Leftmost-first match attempt for the guarded text-effect pattern
`(?m)(?:^|[^D\n])D([^D\n]+)D(?:[^D\n]|$)` (Go: bold for `D = *`,
strikethrough for `D = -`).  The replacement callback re-parses the match as
`(.*?)D([^D\n]+)D(.*)` and rewraps the inner run with `wrap`, keeping the
one optional leading and trailing character of the match. -/
def effectCore (d : Char) (wrap pre t : List Char) : Option (List Char × List Char) :=
  let inner := t.takeWhile (fun c => !(c == d) && !(c == '\n'))
  if inner ≠ [] ∧ t.get? inner.length = some d then
    let u := t.drop (inner.length + 1)
    match u with
    | [] => some (pre ++ wrap ++ inner ++ wrap, [])
    | e :: u' =>
      if e = '\n' then some (pre ++ wrap ++ inner ++ wrap, u)
      else if e = d then none
      else some (pre ++ wrap ++ inner ++ wrap ++ [e], u')
  else none

/-- Prefix alternation of the guarded text-effect pattern: at a line start
the zero-width `^` branch is tried first (requiring the delimiter
immediately); otherwise one character that is neither the delimiter nor a
newline is consumed before the delimiter. -/
def effectTry (d : Char) (wrap : List Char) (atStart : Bool) (s : List Char) :
    Option (List Char × List Char) :=
  match s with
  | [] => none
  | c :: t =>
    if atStart ∧ c = d then effectCore d wrap [] t
    else if !(c = d) ∧ !(c = '\n') then
      match t with
      | d' :: t' => if d' = d then effectCore d wrap [c] t' else none
      | [] => none
    else none

/-- Single match attempt of the unguarded single-delimiter patterns
`D([^D(\n)?]+)D` → `lw $1 rw`: italic `_…_` → `*…*`, underline `+…+` →
`__…__`, superscript `^…^` → bare content, subscript `~…~` → bare content
(the latter two character classes do not exclude `\n`, hence `nlStops`),
and, in the Markdown→Jira direction, `\*([^*]+)\*` → `_$1_` and
`` `…` `` → `{{…}}`. -/
def simpleDelimTry (d : Char) (nlStops : Bool) (lw rw : List Char) (_ : Bool)
    (s : List Char) : Option (List Char × List Char) :=
  match s with
  | [] => none
  | c :: t =>
    if c = d then
      let inner := t.takeWhile (fun x => !(x == d) && (!nlStops || !(x == '\n')))
      if inner ≠ [] ∧ t.get? inner.length = some d then
        some (lw ++ inner ++ rw, t.drop (inner.length + 1))
      else none
    else none

/-- Single match attempt of the double-delimiter patterns
`OO([^X]+)CC` → `lw $1 rw`: inline code `\{\{([^}]+)\}\}` → `` `$1` `` and,
in the Markdown→Jira direction, `\*\*([^*]+)\*\*` → `*$1*`. -/
def doubleDelimTry (o c x : Char) (lw rw : List Char) (_ : Bool)
    (s : List Char) : Option (List Char × List Char) :=
  match s with
  | a :: b :: t =>
    if a = o ∧ b = o then
      let inner := t.takeWhile (fun y => !(y = x))
      if inner ≠ [] ∧ t.get? inner.length = some c ∧
          t.get? (inner.length + 1) = some c then
        some (lw ++ inner ++ rw, t.drop (inner.length + 2))
      else none
    else none
  | _ => none

/-- Go `convertTextFormatting`: the six regex substitutions run in source
order — bold, italic, underline, strikethrough, inline code, superscript,
subscript. -/
def convertTextFormatting (content : List Char) : List Char :=
  let bold := scanSt (effectTry '*' ("**".toList)) content.length true content
  let ital := scanSt (simpleDelimTry '_' true ("*".toList) ("*".toList))
    bold.length true bold
  let und := scanSt (simpleDelimTry '+' true ("__".toList) ("__".toList))
    ital.length true ital
  let strike := scanSt (effectTry '-' ("~~".toList)) und.length true und
  let code := scanSt (doubleDelimTry '\x7b' '\x7d' '\x7d'
    ("\x60".toList) ("\x60".toList)) strike.length true strike
  let sup := scanSt (simpleDelimTry '^' false [] []) code.length true code
  scanSt (simpleDelimTry '~' false [] []) sup.length true sup

/-- Optional title group of `\{panel(?::title=([^}]*))?\}`: given the text
following the literal `{panel`, parse `:title=T}` or a bare `}`.  As with
`codeLang`, Go's `parts[1]` is empty both for an absent group and an empty
capture and the replacement guards on `!= ""`, so a plain list suffices. -/
def panelHead : List Char → Option (List Char × List Char)
  | c :: t =>
    if c = '\x7d' then some ([], t)
    else if c = ':' ∧ leadMatch ("title=".toList) t then
      let title := (t.drop 6).takeWhile (fun x => !(x = '\x7d'))
      match (t.drop 6).drop title.length with
      | d :: u => if d = '\x7d' then some (title, u) else none
      | [] => none
    else none
  | [] => none

/-- Single match attempt of `(?s)\{panel(?::title=([^}]*))?\}(.*?)\{panel\}`
with the Go callback replacement: optional `### T` heading plus blank line,
trimmed body, trailing `\n\n---`. -/
def panelTry (_ : Bool) (s : List Char) : Option (List Char × List Char) :=
  if leadMatch ("\x7bpanel".toList) s then
    match panelHead (s.drop 6) with
    | some (title, afterHead) =>
      match findSplit ("\x7bpanel\x7d".toList) afterHead with
      | some (body, post) =>
        let heading := if title ≠ [] then "### ".toList ++ title ++ "\n\n".toList else []
        some (heading ++ trimSpaceGo body ++ "\n\n---".toList, post)
      | none => none
    | none => none
  else none

/-- Go `convertPanels`. -/
def convertPanels (content : List Char) : List Char :=
  scanSt panelTry content.length true content

/-- Single match attempt of `(?s)\{quote\}(.*?)\{quote\}` with the Go
callback replacement: every line of the trimmed body prefixed with `> `. -/
def quoteTry (_ : Bool) (s : List Char) : Option (List Char × List Char) :=
  if leadMatch ("\x7bquote\x7d".toList) s then
    match findSplit ("\x7bquote\x7d".toList) (s.drop 7) with
    | some (body, post) =>
      some (joinSep ['\n'] ((splitOnTok ['\n'] (trimSpaceGo body)).map
        (fun l => "> ".toList ++ l)), post)
    | none => none
  else none

/-- Go `convertQuotes`: the `{quote}` block pass followed by the
line-anchored `bq.` → `>` pass (same pattern shape as the headings). -/
def convertQuotes (content : List Char) : List Char :=
  let c1 := scanSt quoteTry content.length true content
  lineTagPass ("bq.".toList) (">".toList) c1

/-- Single match attempt of `\[([^|\]]+)\|([^\]]+)\]` → `[$1]($2)`. -/
def linkPipeTry (_ : Bool) (s : List Char) : Option (List Char × List Char) :=
  match s with
  | c :: t =>
    if c = '[' then
      let r1 := t.takeWhile (fun x => !(x = '|') ∧ !(x = ']'))
      if r1 ≠ [] ∧ t.get? r1.length = some '|' then
        let t2 := t.drop (r1.length + 1)
        let r2 := t2.takeWhile (fun x => !(x = ']'))
        if r2 ≠ [] ∧ t2.get? r2.length = some ']' then
          some ('[' :: r1 ++ "](".toList ++ r2 ++ [')'], t2.drop (r2.length + 1))
        else none
      else none
    else none
  | [] => none

/-- Single match attempt of `\[([^|\]]+)\]` → `[$1]($1)`. -/
def linkBareTry (_ : Bool) (s : List Char) : Option (List Char × List Char) :=
  match s with
  | c :: t =>
    if c = '[' then
      let r := t.takeWhile (fun x => !(x = '|') ∧ !(x = ']'))
      if r ≠ [] ∧ t.get? r.length = some ']' then
        some ('[' :: r ++ "](".toList ++ r ++ [')'], t.drop (r.length + 1))
      else none
    else none
  | [] => none

/-- Go `convertLinks`: the `[text|url]` substitution followed by the bare
`[url]` substitution, each a full `ReplaceAllString` pass. -/
def convertLinks (content : List Char) : List Char :=
  let c1 := scanSt linkPipeTry content.length true content
  scanSt linkBareTry c1.length true c1

/-- Go `convertTables`: line-oriented loop with the `inTable` flag. -/
def convertTablesLoop : List (List Char) → Bool → List (List Char)
  | [], _ => []
  | line :: ls, inTable =>
    let trimmed := trimSpaceGo line
    if leadMatch ("||".toList) trimmed ∧ tailMatch ("||".toList) trimmed then
      let headers := (splitOnTok ("||".toList) (trimCut ['|'] trimmed)).map trimSpaceGo
      ("| ".toList ++ joinSep (" | ".toList) headers ++ " |".toList) ::
        ("| ".toList ++ joinSep (" | ".toList) (headers.map (fun _ => "---".toList)) ++
          " |".toList) ::
        convertTablesLoop ls true
    else if leadMatch ("|".toList) trimmed ∧ tailMatch ("|".toList) trimmed ∧ inTable then
      let cells := (splitOnTok ("|".toList) (trimCut ['|'] trimmed)).map trimSpaceGo
      ("| ".toList ++ joinSep (" | ".toList) cells ++ " |".toList) ::
        convertTablesLoop ls inTable
    else
      line :: convertTablesLoop ls false

/-- Go `convertTables`: split on `\n`, run the loop with `inTable = false`,
join with `\n`.  The `len > 0` guards of the source always hold because
`strings.Split` never returns an empty slice. -/
def convertTables (content : List Char) : List Char :=
  joinSep ['\n'] (convertTablesLoop (splitOnTok ['\n'] content) false)

/-- Go `ConvertJiraToMarkdown`: the full pipeline — newline normalisation,
code blocks, headings, lists, text formatting, panels, quotes, links,
tables. -/
def ConvertJiraToMarkdown (input : List Char) : List Char :=
  if input = [] then input
  else
    let c0 := replaceAll ("\r\n".toList) ("\n".toList) input
    let c1 := replaceAll ("\r".toList) ("\n".toList) c0
    let c2 := convertCodeBlocks c1
    let c3 := convertHeadings c2
    let c4 := convertLists c3
    let c5 := convertTextFormatting c4
    let c6 := convertPanels c5
    let c7 := convertQuotes c6
    let c8 := convertLinks c7
    convertTables c8

/-- Go `convertMarkdownTextFormatting`: three regex substitutions in source
order — `\*\*([^*]+)\*\*` → `*$1*`, then `\*([^*]+)\*` → `_$1_`, then
`` `([^`]+)` `` → `{{$1}}`. -/
def convertMarkdownTextFormatting (content : List Char) : List Char :=
  let bold := scanSt (doubleDelimTry '*' '*' '*' ("*".toList) ("*".toList))
    content.length true content
  let ital := scanSt (simpleDelimTry '*' false ("_".toList) ("_".toList))
    bold.length true bold
  scanSt (simpleDelimTry '\x60' false ("\x7b\x7b".toList) ("\x7d\x7d".toList))
    ital.length true ital

end Mdconv

namespace Jirawiki

open Tkt

/-- Go strings are byte sequences; each element is one byte (0–255). -/
abbrev GoStr := List Nat

/-- Failure modes of the embedded Go code: `panicRange` models a runtime
panic from an out-of-range slice or index; `outOfFuel` is the artifact
reported when a loop's fuel is exhausted, which on real executions can only
happen where the Go original diverges. -/
inductive GoErr where
  | panicRange : GoErr
  | outOfFuel : GoErr
deriving DecidableEq, Repr

abbrev ExceptP (α : Type) := Except GoErr α

deriving instance DecidableEq for Except

/-- Byte list of an ASCII string literal (only used for ASCII text). -/
def asciiB (s : String) : GoStr := s.toList.map Char.toNat

/-- Checked Go index expression `s[i]`. -/
def idxE (s : GoStr) (i : Nat) : ExceptP Nat :=
  match s.get? i with
  | some b => .ok b
  | none => .error .panicRange

/-- Checked Go slice expression `s[a:b]` (panics unless `a ≤ b ≤ len s`). -/
def sliceE (s : GoStr) (a b : Nat) : ExceptP GoStr :=
  if a ≤ b ∧ b ≤ s.length then .ok ((s.drop a).take (b - a)) else .error .panicRange

/-- Checked Go slice expression `s[a:]`. -/
def sliceFromE (s : GoStr) (a : Nat) : ExceptP GoStr := sliceE s a s.length

/-- UTF-8 encoding of one code point, as Go's `WriteRune`/`string(rune)`
produce it (surrogates and out-of-range values encode U+FFFD). -/
def utf8EncodeChar (c : Nat) : GoStr :=
  if 0xD800 ≤ c ∧ c ≤ 0xDFFF then [0xEF, 0xBF, 0xBD]
  else if c < 0x80 then [c]
  else if c < 0x800 then [0xC0 + c / 0x40, 0x80 + c % 0x40]
  else if c < 0x10000 then
    [0xE0 + c / 0x1000, 0x80 + (c / 0x40) % 0x40, 0x80 + c % 0x40]
  else if c ≤ 0x10FFFF then
    [0xF0 + c / 0x40000, 0x80 + (c / 0x1000) % 0x40, 0x80 + (c / 0x40) % 0x40,
      0x80 + c % 0x40]
  else [0xEF, 0xBF, 0xBD]

/-- UTF-8 encoding of a rune sequence (Go `string([]rune)`). -/
def utf8EncodeList (rs : List Nat) : GoStr := (rs.map utf8EncodeChar).flatten

/-- Continuation byte test. -/
def utf8Cont (b : Nat) : Bool := 0x80 ≤ b ∧ b ≤ 0xBF

/-- Decode one rune from the front of a byte sequence, Go
`utf8.DecodeRuneInString` style: returns the code point and the number of
bytes consumed (`≥ 1`); any invalid encoding yields `(U+FFFD, 1)`. -/
def utf8DecodeOne : GoStr → Nat × Nat
  | [] => (0xFFFD, 1)
  | b :: bs =>
    if b < 0x80 then (b, 1)
    else if 0xC2 ≤ b ∧ b ≤ 0xDF then
      match bs with
      | b2 :: _ =>
        if utf8Cont b2 then ((b - 0xC0) * 0x40 + (b2 - 0x80), 2) else (0xFFFD, 1)
      | [] => (0xFFFD, 1)
    else if 0xE0 ≤ b ∧ b ≤ 0xEF then
      match bs with
      | b2 :: b3 :: _ =>
        let ok2 := if b = 0xE0 then 0xA0 ≤ b2 ∧ b2 ≤ 0xBF
          else if b = 0xED then 0x80 ≤ b2 ∧ b2 ≤ 0x9F
          else utf8Cont b2
        if ok2 ∧ utf8Cont b3 then
          (((b - 0xE0) * 0x40 + (b2 - 0x80)) * 0x40 + (b3 - 0x80), 3)
        else (0xFFFD, 1)
      | _ => (0xFFFD, 1)
    else if 0xF0 ≤ b ∧ b ≤ 0xF4 then
      match bs with
      | b2 :: b3 :: b4 :: _ =>
        let ok2 := if b = 0xF0 then 0x90 ≤ b2 ∧ b2 ≤ 0xBF
          else if b = 0xF4 then 0x80 ≤ b2 ∧ b2 ≤ 0x8F
          else utf8Cont b2
        if ok2 ∧ utf8Cont b3 ∧ utf8Cont b4 then
          ((((b - 0xF0) * 0x40 + (b2 - 0x80)) * 0x40 + (b3 - 0x80)) * 0x40 +
            (b4 - 0x80), 4)
        else (0xFFFD, 1)
      | _ => (0xFFFD, 1)
    else (0xFFFD, 1)

/-- Decompose a byte sequence into rune chunks `(codePoint, bytes)`; the
concatenation of the chunk byte lists is the original sequence.  Fuel equal
to the length is exact (each chunk consumes at least one byte). -/
def utf8Chunks : Nat → GoStr → List (Nat × GoStr)
  | _, [] => []
  | 0, _ => []
  | f + 1, b :: bs =>
    let p := utf8DecodeOne (b :: bs)
    (p.1, (b :: bs).take p.2) :: utf8Chunks f ((b :: bs).drop p.2)

/-- Go `[]rune(s)`: the code-point sequence of a byte string. -/
def utf8Decode (s : GoStr) : List Nat := (utf8Chunks s.length s).map Prod.fst

/-- Go `strings.TrimSpace` on a byte string: trim leading and trailing
space runes, preserving the interior bytes exactly. -/
def trimSpaceBytes (s : GoStr) : GoStr :=
  ((((utf8Chunks s.length s).dropWhile (fun p => isSpaceRune p.1)).reverse.dropWhile
    (fun p => isSpaceRune p.1)).reverse.map Prod.snd).flatten

/-- Token families of the `jirawiki` package (the Go `typeTag…` string
constants). -/
inductive Fam where
  | textEffect : Fam
  | list : Fam
  | heading : Fam
  | inlineQuote : Fam
  | refLink : Fam
  | table : Fam
  | fencedCode : Fam
  | other : Fam
deriving DecidableEq, Repr

/-- Go `Token`.  The Go `attrs` map can only ever hold the key `"title"`
(see `extractAttributes`), so it is modelled as an optional value. -/
structure Token where
  tag : GoStr
  family : Fam
  attrs : Option GoStr
  startIdx : Nat
  endIdx : Nat
deriving DecidableEq, Repr

/-- Go tag constants (ASCII byte lists). -/
def tagQuoteB : GoStr := asciiB "\x7bquote\x7d"

def tagPanelB : GoStr := asciiB "\x7bpanel\x7d"

def tagCodeB : GoStr := asciiB "\x7bcode\x7d"

def tagNoFormatB : GoStr := asciiB "\x7bnoformat\x7d"

/-- Go `validTags` (the two one-character tags `#`, `*` and `*` appearing
twice in the source collapse in a membership test). -/
def validTagsB : List GoStr :=
  [asciiB "h1.", asciiB "h2.", asciiB "h3.", asciiB "h4.", asciiB "h5.",
   asciiB "h6.", asciiB "bq.", tagQuoteB, tagPanelB, tagCodeB, tagNoFormatB,
   asciiB "[", asciiB "#", asciiB "*", asciiB "*", asciiB "||"]

/-- Go `isToken`. -/
def isToken (w : GoStr) : Bool := validTagsB.contains w

/-- Go `replacements` map as a function; a missing key yields the empty
string, as a Go map lookup does.  Note `"#" ↦ "-"` (ordered list) and
`"*" ↦ "**"` (bold) as in the source. -/
def replacementsF (tag : GoStr) : GoStr :=
  if tag = asciiB "h1." then asciiB "#"
  else if tag = asciiB "h2." then asciiB "##"
  else if tag = asciiB "h3." then asciiB "###"
  else if tag = asciiB "h4." then asciiB "####"
  else if tag = asciiB "h5." then asciiB "#####"
  else if tag = asciiB "h6." then asciiB "######"
  else if tag = tagQuoteB then asciiB "> "
  else if tag = tagPanelB then asciiB "---"
  else if tag = asciiB "bq." then asciiB ">"
  else if tag = tagCodeB then asciiB "\x60\x60\x60"
  else if tag = tagNoFormatB then asciiB "\x60\x60\x60"
  else if tag = asciiB "#" then asciiB "-"
  else if tag = asciiB "*" then asciiB "**"
  else if tag = asciiB "||" then asciiB "|"
  else []

/-- Go `isTextEffectRune` (rune-based): the rune at `beg` is `*` and the
next rune is neither a space nor another `*`. -/
def isTextEffectRune (runes : List Nat) (beg : Nat) : Bool :=
  if beg ≥ runes.length ∨ beg + 1 ≥ runes.length then false
  else
    (runes.getD beg 0 = 42) ∧
      (!(runes.getD (beg + 1) 0 = 32) ∧ !(runes.getD (beg + 1) 0 = runes.getD beg 0))

/-- Go `isListTagRune`: the rune at `beg` is `#` or `*` and the next rune is
a space or the same rune. -/
def isListTagRune (runes : List Nat) (beg : Nat) : Bool :=
  if beg ≥ runes.length ∨ beg + 1 ≥ runes.length then false
  else
    (runes.getD beg 0 = 35 ∨ runes.getD beg 0 = 42) ∧
      (runes.getD (beg + 1) 0 = 32 ∨ runes.getD (beg + 1) 0 = runes.getD beg 0)

/-- Go `isHeadingsTag`: byte at `beg` is `h` and the byte at the fixed
index 2 is `.` (the source really uses index 2, not `beg + 2`).  The byte
accesses are in range at every call site (`beg + 1 < len` is checked by
`getTagType`, and the `size < 3` guard covers index 2), so `getD` is
exact. -/
def isHeadingsTag (beg : Nat) (line : GoStr) : Bool :=
  if line.length < 3 then false
  else line.getD beg 0 = 104 ∧ line.getD 2 0 = 46

/-- Go `isInlineBlockQuote`: byte at `beg` is `b` and byte 2 is `.`. -/
def isInlineBlockQuote (beg : Nat) (line : GoStr) : Bool :=
  if line.length < 3 then false
  else line.getD beg 0 = 98 ∧ line.getD 2 0 = 46

/-- Go `isReferenceLink`: byte at `beg` is `[` and a `]` occurs after it. -/
def isReferenceLink (beg : Nat) (line : GoStr) : Bool :=
  if line.getD beg 0 = 91 then
    let e := beg + 1 + ((line.drop (beg + 1)).takeWhile (fun b => !(b = 93))).length
    e < line.length ∧ line.getD e 0 = 93
  else false

/-- Go `isTable`: the line has length at least 2 relative to `beg` and both
the byte at `beg` and the last byte are `|`. -/
def isTable (beg : Nat) (line : GoStr) : Bool :=
  let e := line.length - 1
  !(e = beg) ∧ line.getD beg 0 = 124 ∧ line.getD e 0 = 124

/-- Go `getTagType`: the byte-bounds guard, then the rune-based and
byte-based classifiers in source order.  Note the byte index `beg` is used
as an index into the rune sequence — the byte/rune confusion of the
source is preserved. -/
def getTagType (line : GoStr) (beg : Nat) : Fam :=
  if beg ≥ line.length ∨ beg + 1 ≥ line.length then .other
  else
    let runes := utf8Decode line
    if beg ≥ runes.length then .other
    else if isTextEffectRune runes beg then .textEffect
    else if isListTagRune runes beg then .list
    else if isHeadingsTag beg line then .heading
    else if isInlineBlockQuote beg line then .inlineQuote
    else if isReferenceLink beg line then .refLink
    else if isTable beg line then .table
    else .other

/-- Go `extractAttributes`.  Returns the (possibly rewritten) tag and the
optional `title` attribute.  The Go code indexes `token[0]`, which panics on
an empty token (never produced by `tokenize`). -/
def extractAttributesE (token : GoStr) : ExceptP (GoStr × Option GoStr) := do
  let b0 ← idxE token 0
  if !(b0 = 123) ∨ !(token.contains 58) then
    return (token, none)
  match splitOnTok [58] token with
  | [p0, p1] =>
    if p1 = [] then return (token, none)
    let tag := p0 ++ [125]
    let meta := p1.dropLast
    let attrs := (splitOnTok [124] meta).foldl
      (fun acc m =>
        match splitOnTok [61] m with
        | [v] => some v
        | k :: v :: _ => if k = asciiB "title" then some v else acc
        | [] => acc)
      none
    return (tag, attrs)
  | _ => return (token, none)

/-- Go `tokenize`, main loop over byte positions of the trimmed line.  Fuel
`line.length + 1` is exact: every recursing branch strictly increases `beg`.
The heading/inline-quote branch slices `line[beg:end+1]` where `end` may
equal `len(line)` when no `.` occurs after `beg` — the checked slice then
reports the Go panic. -/
def tokenizeLoop (line : GoStr) : Nat → Nat → List Token → ExceptP (List Token)
  | 0, _, _ => .error .outOfFuel
  | f + 1, beg, acc =>
    if beg < line.length - 1 then
      match getTagType line beg with
      | .textEffect => do
        let b0 := line.getD beg 0
        let scan := ((line.drop (beg + 1)).takeWhile (fun x => !(x = b0))).length
        let e := beg + 1 + scan
        let word ← if e < line.length - 1 then sliceE line beg (e + 1)
          else sliceE line beg e
        let tok : Token :=
          {tag := word, family := Fam.textEffect, attrs := none,
           startIdx := beg, endIdx := e}
        tokenizeLoop line f (e + 1) (acc ++ [tok])
      | .heading => do
        let scan := ((line.drop (beg + 1)).takeWhile (fun x => !(x = 46))).length
        let e := beg + 1 + scan
        let word ← sliceE line beg (e + 1)
        let tok : Token :=
          {tag := word, family := Fam.heading, attrs := none,
           startIdx := beg, endIdx := e}
        return (acc ++ [tok])
      | .inlineQuote => do
        let scan := ((line.drop (beg + 1)).takeWhile (fun x => !(x = 46))).length
        let e := beg + 1 + scan
        let word ← sliceE line beg (e + 1)
        let tok : Token :=
          {tag := word, family := Fam.inlineQuote, attrs := none,
           startIdx := beg, endIdx := e}
        return (acc ++ [tok])
      | .list => do
        let b0 := line.getD beg 0
        let scan := ((line.drop (beg + 1)).takeWhile (fun x => x = b0)).length
        let e := beg + 1 + scan
        let word ← sliceE line beg e
        let tok : Token :=
          {tag := word, family := Fam.list, attrs := none,
           startIdx := beg, endIdx := e}
        tokenizeLoop line f (e + 1) (acc ++ [tok])
      | .refLink => do
        let scan := ((line.drop (beg + 1)).takeWhile (fun x => !(x = 93))).length
        let e := beg + 1 + scan
        let word ← sliceE line beg (e + 1)
        let tok : Token :=
          {tag := word, family := Fam.refLink, attrs := none,
           startIdx := beg, endIdx := e}
        tokenizeLoop line f e (acc ++ [tok])
      | .table =>
        let e := line.length - 1
        let tok : Token :=
          {tag := line, family := Fam.table, attrs := none,
           startIdx := beg, endIdx := e}
        tokenizeLoop line f e (acc ++ [tok])
      | _ => do
        let scan := ((line.drop (beg + 1)).takeWhile (fun x =>
          !(x = 42) ∧ !(x = 123) ∧ !(x = 125) ∧ !(x = 91) ∧ !(x = 93))).length
        let e1 := beg + 1 + scan
        let e2 := if !(e1 = line.length) ∧ !(line.getD e1 0 = 42) ∧
            !(line.getD e1 0 = 123) ∧ !(line.getD e1 0 = 91) then e1 + 1 else e1
        let word ← sliceE line beg e2
        let wa ← extractAttributesE word
        if isToken wa.1 then
          let fam := if wa.1 = tagCodeB ∨ wa.1 = tagNoFormatB then Fam.fencedCode
            else Fam.other
          let tok : Token :=
            {tag := wa.1, family := fam, attrs := wa.2,
             startIdx := beg, endIdx := e2 - 1}
          tokenizeLoop line f e2 (acc ++ [tok])
        else tokenizeLoop line f e2 acc
    else return acc

/-- Go `tokenize`: trim the line, then scan. -/
def tokenizeE (line : GoStr) : ExceptP (List Token) :=
  let t := trimSpaceBytes line
  tokenizeLoop t (t.length + 1) 0 []

/-- Go `tokenStarts`: the first token whose `startIdx` equals `idx`. -/
def tokenStarts (idx : Nat) (tokens : List Token) : Option Token :=
  tokens.find? (fun t => t.startIdx = idx)

/-- Go `(*Token).handleTextEffects`.  Note the handler receives the original
(untrimmed) line while the token indices refer to the trimmed line, exactly
as in `secondPass`. -/
def handleTextEffects (t : Token) (line : GoStr) : ExceptP (GoStr × Nat) := do
  let word ← sliceE line (t.startIdx + 1) t.endIdx
  let b ← idxE line t.startIdx
  let rep := replacementsF (utf8EncodeChar b)
  return (rep ++ word ++ rep ++
    (if t.endIdx = line.length - 1 then [10] else []), t.endIdx)

/-- Go `(*Token).handleHeadings`. -/
def handleHeadings (t : Token) (line : GoStr) : ExceptP (GoStr × Nat) := do
  let word ← sliceFromE line (t.endIdx + 1)
  return (replacementsF t.tag ++ word, t.endIdx + word.length)

/-- Go `(*Token).handleInlineBlockQuote`. -/
def handleInlineBlockQuote (t : Token) (line : GoStr) : ExceptP (GoStr × Nat) := do
  let word ← sliceFromE line (t.endIdx + 1)
  return ([10] ++ replacementsF t.tag ++ word, t.endIdx + word.length)

/-- Go `(*Token).handleList`: tabs for nesting depth, then `- ` and the
trimmed remainder of the line. -/
def handleList (t : Token) (line : GoStr) : ExceptP (GoStr × Nat) := do
  let tabs := List.replicate (t.endIdx - 1 - t.startIdx) 9
  let e := t.endIdx + 1
  if e ≥ line.length then return (tabs ++ [45], t.endIdx)
  let rem0 ← sliceFromE line e
  let rem := trimSpaceBytes rem0
  return (tabs ++ asciiB "- " ++ rem, e + rem.length + 1)

/-- Go `checkForInlineClose`. -/
def checkForInlineClose (line : GoStr) : Nat :=
  if line.length > 6 ∧ tailMatch tagCodeB line then line.length - 6
  else if line.length > 10 ∧ tailMatch tagNoFormatB line then line.length - 10
  else 0

/-- Line loop of Go `(*Token).handleFencedCodeBlock`: copy lines verbatim
until a closing tag (alone on its trimmed line, or as an inline suffix);
returns the accumulated body and the index of the closing line. -/
def fencedLoop (lines : List GoStr) : Nat → Nat → GoStr → GoStr × Nat
  | 0, i, acc => (acc, i)
  | f + 1, i, acc =>
    if i < lines.length then
      let raw := lines.getD i []
      let line := trimSpaceBytes raw
      if line = tagCodeB ∨ line = tagNoFormatB then (acc, i)
      else
        let x := checkForInlineClose line
        if x > 0 then (acc ++ line.take x ++ [10], i)
        else fencedLoop lines f (i + 1) (acc ++ raw ++ [10])
    else (acc, i)

/-- Go `(*Token).handleFencedCodeBlock`.  When the opening token sits on the
last line the handler returns the token's `endIdx` as the new line number —
preserved exactly (this is the backward jump that can make `secondPass`
diverge). -/
def handleFencedCodeBlock (t : Token) (idx : Nat) (lines : List GoStr) :
    ExceptP (GoStr × Nat) := do
  if idx = lines.length - 1 then return ([], t.endIdx)
  let title := match t.attrs with
    | some a =>
      (match splitOnTok [46] a with
       | [_, p1] => p1
       | _ => a)
    | none => []
  let p := fencedLoop lines (lines.length + 1) (idx + 1) []
  return ([10] ++ replacementsF t.tag ++ title ++ [10] ++ p.1 ++
    replacementsF t.tag, p.2)

/-- Go `(*Token).handleReferenceLink` (the rune-based rewrite): bounds
checks against the rune sequence, then `[text](url)` for a two-piece body or
`[text]` otherwise. -/
def handleReferenceLink (t : Token) (line : GoStr) : ExceptP (GoStr × Nat) := do
  if line.length < 2 then return ([], t.endIdx)
  let runes := utf8Decode line
  if t.startIdx + 1 ≥ runes.length ∨ t.endIdx ≥ runes.length then
    if t.startIdx ≤ runes.length then
      return (utf8EncodeList (runes.drop t.startIdx), t.endIdx)
    else .error .panicRange
  else
    if t.startIdx + 1 ≤ t.endIdx then
      let body := utf8EncodeList
        ((runes.drop (t.startIdx + 1)).take (t.endIdx - (t.startIdx + 1)))
      match splitOnTok [124] body with
      | [p0, p1] => return ([91] ++ p0 ++ asciiB "](" ++ p1 ++ [41], t.endIdx)
      | p0 :: _ => return ([91] ++ p0 ++ [93], t.endIdx)
      | [] => .error .panicRange
    else .error .panicRange

/-- Go `(*Token).handleTable`: collapse `||` to `|`, emit the row and a
`|---` separator row with one segment per interior column. -/
def handleTable (t : Token) (line : GoStr) : ExceptP (GoStr × Nat) := do
  let b1 ← idxE line 1
  if !(b1 = 124) then return (line, t.endIdx)
  let headers := replaceAll (asciiB "||") (asciiB "|") line
  let cols := splitOnTok (asciiB "|") headers
  let sep := (List.replicate (cols.length - 2) (asciiB "|---")).flatten
  return (headers ++ [10] ++ sep ++ [124], t.endIdx)

/-- Rune loop of Go `secondPass` for one line: walk the rune positions,
dispatch on the token (if any) starting at the current position, otherwise
emit the rune.  A fenced-code token breaks out of the loop and carries a new
line number (`some`). -/
def runeLoopE (lines : List GoStr) (lineNum : Nat) (line : GoStr)
    (tokens : List Token) (runes : List Nat) :
    Nat → Nat → GoStr → ExceptP (GoStr × Option Nat)
  | 0, _, _ => .error .outOfFuel
  | f + 1, beg, acc =>
    if beg < runes.length then
      match tokenStarts beg tokens with
      | some token =>
        match token.family with
        | .textEffect => do
          let p ← handleTextEffects token line
          runeLoopE lines lineNum line tokens runes f (p.2 + 1) (acc ++ p.1)
        | .heading => do
          let p ← handleHeadings token line
          runeLoopE lines lineNum line tokens runes f (p.2 + 1) (acc ++ p.1)
        | .inlineQuote => do
          let p ← handleInlineBlockQuote token line
          runeLoopE lines lineNum line tokens runes f (p.2 + 1) (acc ++ p.1)
        | .list => do
          let p ← handleList token line
          runeLoopE lines lineNum line tokens runes f (p.2 + 1) (acc ++ p.1)
        | .fencedCode => do
          let p ← handleFencedCodeBlock token lineNum lines
          return (acc ++ p.1, some p.2)
        | .refLink => do
          let p ← handleReferenceLink token line
          runeLoopE lines lineNum line tokens runes f (p.2 + 1) (acc ++ p.1)
        | .table => do
          let p ← handleTable token line
          runeLoopE lines lineNum line tokens runes f (p.2 + 1) (acc ++ p.1)
        | .other =>
          let s1 := if token.tag = tagQuoteB then
              (if !(token.endIdx = runes.length - 1) then
                [10] ++ replacementsF token.tag else [])
            else [10] ++ replacementsF token.tag
          let s2 := if token.tag = tagPanelB then
              (match token.attrs with
               | some a => [10] ++ asciiB "**" ++ a ++ asciiB "**" ++ [10]
               | none => []) ++
              (if !(token.endIdx = runes.length - 1) then [10] else [])
            else []
          runeLoopE lines lineNum line tokens runes f (token.endIdx + 1)
            (acc ++ s1 ++ s2)
      | none =>
        runeLoopE lines lineNum line tokens runes f (beg + 1)
          (acc ++ utf8EncodeChar (runes.getD beg 0))
    else return (acc, none)

/-- Line loop of Go `secondPass`.  The fenced-code handler may set the line
number to a smaller value, in which case Go re-processes lines (and can loop
forever); the fuel bound reports such executions as `outOfFuel`. -/
def secondPassLoop (lines : List GoStr) : Nat → Nat → GoStr → ExceptP GoStr
  | 0, _, _ => .error .outOfFuel
  | f + 1, lineNum, acc =>
    if lineNum < lines.length then
      let line := lines.getD lineNum []
      do
        let tokens ← tokenizeE line
        if tokens = [] then
          let acc := acc ++ line
          let ln := lineNum + 1
          let acc := if ln < lines.length - 1 then acc ++ [10] else acc
          secondPassLoop lines f ln acc
        else
          let runes := utf8Decode line
          let p ← runeLoopE lines lineNum line tokens runes (runes.length + 2) 0 []
          let ln := (match p.2 with | some l => l | none => lineNum) + 1
          let acc := acc ++ p.1
          let acc := if ln < lines.length then acc ++ [10] else acc
          secondPassLoop lines f ln acc
    else return acc

/-- The 31 escape-removal replacements at the end of Go `secondPass`, in
source order (`\[`→`[`, `\]`→`]`, …, `\\`→`\`), as byte pairs. -/
def escapePairs : List (GoStr × GoStr) :=
  [([92, 91], [91]), ([92, 93], [93]), ([92, 40], [40]), ([92, 41], [41]),
   ([92, 42], [42]), ([92, 95], [95]), ([92, 45], [45]), ([92, 43], [43]),
   ([92, 35], [35]), ([92, 46], [46]), ([92, 33], [33]), ([92, 124], [124]),
   ([92, 123], [123]), ([92, 125], [125]), ([92, 60], [60]), ([92, 62], [62]),
   ([92, 38], [38]), ([92, 96], [96]), ([92, 126], [126]), ([92, 94], [94]),
   ([92, 64], [64]), ([92, 36], [36]), ([92, 37], [37]), ([92, 61], [61]),
   ([92, 58], [58]), ([92, 59], [59]), ([92, 39], [39]), ([92, 34], [34]),
   ([92, 63], [63]), ([92, 47], [47]), ([92, 92], [92])]

/-- Apply the escape-removal replacements in order. -/
def unescapeAll (s : GoStr) : GoStr :=
  escapePairs.foldl (fun acc p => replaceAll p.1 p.2 acc) s

/-- Fuel for the `secondPass` line loop: ample for every terminating Go
execution. -/
def fuelFor (lines : List GoStr) : Nat :=
  (lines.length + 2) * ((lines.map (fun l => l.length + 2)).sum + 2)

/-- Go `secondPass`: the line loop, then escape removal, then the trailing
newline appended whenever the result does not already end with one. -/
def secondPassE (lines : List GoStr) : ExceptP GoStr := do
  let r ← secondPassLoop lines (fuelFor lines) 0 []
  let u := unescapeAll r
  return (if tailMatch [10] u then u else u ++ [10])

/-- Go `firstPass`: cut the input into lines, stopping each line at `\r` or
`\n`, then skipping any run of `\r` and one further byte. -/
def firstPassLoop (input : GoStr) : Nat → Nat → List GoStr
  | 0, _ => []
  | f + 1, beg =>
    if beg < input.length then
      let scan := ((input.drop beg).takeWhile
        (fun b => !(b = 13) ∧ !(b = 10))).length
      let line := (input.drop beg).take scan
      let e := beg + scan
      let e2 := e + ((input.drop e).takeWhile (fun b => b = 13)).length
      line :: firstPassLoop input f (e2 + 1)
    else []

/-- Go `firstPass`. -/
def firstPass (input : GoStr) : List GoStr :=
  firstPassLoop input (input.length + 1) 0

/-- Go `jirawiki.Parse`: `secondPass ∘ firstPass`. -/
def ParseE (input : GoStr) : ExceptP GoStr := secondPassE (firstPass input)

end Jirawiki

namespace MdGo

/-- Go `md.ToJiraMD`.  The function's own control flow — the empty-input
early return — is preserved; the remaining body (the blackfriday CommonMark
parser together with the package's push renderer, an external dependency of
the analysed sources) is abstracted as the `render` parameter. -/
def ToJiraMD (render : List Char → List Char) (md : List Char) : List Char :=
  if md = [] then md else render md

end MdGo

namespace Mdconv

open Tkt

/-- Wiki-markup metacharacters named by the spec's identity property: `*`,
`_`, `+`, `-`, `{`, `}`, `[`, `]`, `|`, `#`, `^`, `~`, and carriage
return. -/
def metaChars : List Char :=
  ['*', '_', '+', '-', '\x7b', '\x7d', '[', ']', '|', '#', '^', '~', '\r']

/-- A character that is not a wiki-markup metacharacter. -/
def plainChar (c : Char) : Bool := !(metaChars.contains c)

/-- No line of the text, scanned with the line-start flag `a`, begins with
`tag` (the condition under which a `(?m)^TAG\s+(.+)$` pass cannot fire). -/
def tagFreeB (tag : List Char) : Bool → List Char → Bool
  | _, [] => true
  | a, c :: r => !(a && leadMatch tag (c :: r)) && tagFreeB tag (c == '\n') r

/-- Plain text in the sense of the spec's identity property: no metacharacter
occurs, and no line begins with an `h1.`-…-`h6.` heading prefix or the `bq.`
prefix. -/
def plainTextB (x : List Char) : Bool :=
  x.all plainChar &&
  tagFreeB ("h1.".toList) true x && tagFreeB ("h2.".toList) true x &&
  tagFreeB ("h3.".toList) true x && tagFreeB ("h4.".toList) true x &&
  tagFreeB ("h5.".toList) true x && tagFreeB ("h6.".toList) true x &&
  tagFreeB ("bq.".toList) true x

end Mdconv

namespace Tkt

/-- Step lemma: scanning the empty input yields the empty output. -/
theorem scanSt_nil (try_ : Bool → List Char → Option (List Char × List Char))
    (f : Nat) (a : Bool) : scanSt try_ f a [] = [] := by
  cases f <;> rfl

/-- Step lemma: a successful match emits the replacement and resumes after
the match with the line-start flag cleared. -/
theorem scanSt_cons_some {try_ : Bool → List Char → Option (List Char × List Char)}
    {a : Bool} {c : Char} {r repl rest : List Char} (f : Nat)
    (h : try_ a (c :: r) = some (repl, rest)) :
    scanSt try_ (f + 1) a (c :: r) = repl ++ scanSt try_ f false rest := by
  simp [scanSt, h]

/-- Step lemma: a failed match emits one character literally. -/
theorem scanSt_cons_none {try_ : Bool → List Char → Option (List Char × List Char)}
    {a : Bool} {c : Char} {r : List Char} (f : Nat)
    (h : try_ a (c :: r) = none) :
    scanSt try_ (f + 1) a (c :: r) = c :: scanSt try_ f (c == '\n') r := by
  simp [scanSt, h]

/-- A scanner whose match attempt always fails on inputs satisfying an
invariant `P` (preserved when one character is consumed) is the identity on
such inputs, for every fuel value. -/
theorem scanSt_eq_self {try_ : Bool → List Char → Option (List Char × List Char)}
    (P : Bool → List Char → Prop)
    (hstep : ∀ a c r, P a (c :: r) → P (c == '\n') r)
    (hnone : ∀ a s, P a s → try_ a s = none) :
    ∀ f a s, P a s → scanSt try_ f a s = s := by
  intro f
  induction f with
  | zero => intro a s _; cases s <;> rfl
  | succ f ih =>
    intro a s hP
    cases s with
    | nil => rfl
    | cons c r =>
      rw [scanSt_cons_none f (hnone a (c :: r) hP)]
      exact congrArg (c :: ·) (ih (c == '\n') r (hstep a c r hP))

/-- A non-empty pattern cannot be a prefix of a list that does not contain
its first element. -/
theorem leadMatch_false_of_not_mem {α : Type} [DecidableEq α] {p : α}
    (ps : List α) {s : List α} (h : p ∉ s) : leadMatch (p :: ps) s = false := by
  cases s with
  | nil => rfl
  | cons c cs =>
    have : ¬(p = c) := fun e => h (e ▸ List.mem_cons_self c cs)
    simp [leadMatch, this]

/-- A pattern is a prefix of itself followed by anything. -/
theorem leadMatch_append_self {α : Type} [DecidableEq α] :
    ∀ (p r : List α), leadMatch p (p ++ r) = true := by
  intro p
  induction p with
  | nil => intro r; rfl
  | cons x xs ih => intro r; simp [leadMatch, ih]

/-- Go `TrimPrefix pat (pat ++ r) = r`. -/
theorem dropLead_append {α : Type} [DecidableEq α] (p r : List α) :
    dropLead p (p ++ r) = r := by
  simp [dropLead, leadMatch_append_self, List.drop_left]

/-- `ReplaceAll` is the identity when the first pattern element does not
occur in the input (any fuel). -/
theorem replaceAllF_eq_self {α : Type} [DecidableEq α] {p : α} (ps rep : List α) :
    ∀ (f : Nat) (s : List α), p ∉ s → replaceAllF (p :: ps) rep f s = s := by
  intro f
  induction f with
  | zero => intro s _; cases s <;> rfl
  | succ f ih =>
    intro s h
    cases s with
    | nil => rfl
    | cons c r =>
      have hlm : leadMatch (p :: ps) (c :: r) = false := leadMatch_false_of_not_mem ps h
      have hr : p ∉ r := fun m => h (List.mem_cons_of_mem c m)
      simp [replaceAllF, hlm, ih r hr]

/-- Membership survives `dropWhile`. -/
theorem mem_of_mem_dropWhile {α : Type} {p : α → Bool} :
    ∀ {s : List α} {x : α}, x ∈ s.dropWhile p → x ∈ s := by
  intro s
  induction s with
  | nil => intro x h; exact absurd h (by simp)
  | cons c r ih =>
    intro x h
    by_cases hc : p c = true
    · rw [List.dropWhile_cons_of_pos hc] at h
      exact List.mem_cons_of_mem c (ih h)
    · rw [List.dropWhile_cons_of_neg hc] at h
      exact h

/-- Membership survives `trimSpaceGo`. -/
theorem mem_of_mem_trimSpaceGo {s : List Char} {x : Char}
    (h : x ∈ trimSpaceGo s) : x ∈ s := by
  unfold trimSpaceGo at h
  rw [List.mem_reverse] at h
  have h1 := mem_of_mem_dropWhile h
  rw [List.mem_reverse] at h1
  exact mem_of_mem_dropWhile h1

/-- `splitOnTokF` never returns the empty list of pieces. -/
theorem splitOnTokF_ne_nil {α : Type} [DecidableEq α] (sep : List α) :
    ∀ (f : Nat) (s : List α), splitOnTokF sep f s ≠ [] := by
  intro f
  induction f with
  | zero => intro s; cases s <;> simp [splitOnTokF]
  | succ f ih =>
    intro s
    cases s with
    | nil => simp [splitOnTokF]
    | cons c r =>
      by_cases hc : sep ≠ [] ∧ leadMatch sep (c :: r) = true
      · simp [splitOnTokF, hc]
      · simp only [splitOnTokF, if_neg hc]
        cases h : splitOnTokF sep f r with
        | nil => exact absurd h (ih r)
        | cons l ls => simp

/-- Splitting on an absent single-element separator yields one piece. -/
theorem splitOnTokF_single {α : Type} [DecidableEq α] {c : α} :
    ∀ (f : Nat) (s : List α), c ∉ s → splitOnTokF [c] f s = [s] := by
  intro f
  induction f with
  | zero => intro s _; cases s <;> rfl
  | succ f ih =>
    intro s h
    cases s with
    | nil => rfl
    | cons d r =>
      have hlm : leadMatch [c] (d :: r) = false := leadMatch_false_of_not_mem [] h
      have hr : c ∉ r := fun m => h (List.mem_cons_of_mem d m)
      simp [splitOnTokF, hlm, ih r hr]

/-- For a single-element separator, `leadMatch` at the head decides equality
with the head. -/
theorem leadMatch_single {α : Type} [DecidableEq α] {c d : α} (r : List α) :
    leadMatch [c] (d :: r) = true ↔ c = d := by
  by_cases h : c = d <;> simp [leadMatch, h]

/-- Negative form of `leadMatch_single`. -/
theorem leadMatch_single_false {α : Type} [DecidableEq α] {c d : α} (r : List α)
    (hd : ¬(c = d)) : leadMatch [c] (d :: r) = false := by
  cases hb : leadMatch [c] (d :: r) with
  | false => rfl
  | true => exact absurd ((leadMatch_single r).mp hb) hd

/-- Unfolding of the split step when the head is the separator. -/
theorem splitOnTokF_cons_pos {α : Type} [DecidableEq α] {c d : α} (f : Nat)
    (r : List α) (hd : c = d) :
    splitOnTokF [c] (f + 1) (d :: r) = [] :: splitOnTokF [c] f r := by
  have hc : ([c] : List α) ≠ [] ∧ leadMatch [c] (d :: r) = true :=
    ⟨by simp, (leadMatch_single r).mpr hd⟩
  simp only [splitOnTokF, if_pos hc]
  rfl

/-- Unfolding of the split step when the head is not the separator. -/
theorem splitOnTokF_cons_neg {α : Type} [DecidableEq α] {c d : α} (f : Nat)
    (r : List α) (hd : ¬(c = d)) :
    splitOnTokF [c] (f + 1) (d :: r) =
      match splitOnTokF [c] f r with
      | l :: ls => (d :: l) :: ls
      | [] => [[d]] := by
  have hc : ¬(([c] : List α) ≠ [] ∧ leadMatch [c] (d :: r) = true) := by
    intro h
    rw [leadMatch_single_false r hd] at h
    exact Bool.noConfusion h.2
  simp only [splitOnTokF, if_neg hc]

/-- Every piece of a single-element-separator split avoids the separator
(fuel at least the input length). -/
theorem splitOnTokF_pieces {α : Type} [DecidableEq α] {c : α} :
    ∀ (f : Nat) (s l : List α), s.length ≤ f → l ∈ splitOnTokF [c] f s → c ∉ l := by
  intro f
  induction f with
  | zero =>
    intro s l hf h
    have : s = [] := List.length_eq_zero.mp (Nat.le_zero.mp hf)
    subst this
    simp [splitOnTokF] at h
    simp [h]
  | succ f ih =>
    intro s l hf h
    cases s with
    | nil =>
      simp [splitOnTokF] at h
      simp [h]
    | cons d r =>
      have hr : r.length ≤ f := Nat.le_of_succ_le_succ (by simpa using hf)
      by_cases hd : c = d
      · rw [splitOnTokF_cons_pos f r hd] at h
        rcases List.mem_cons.mp h with h1 | h1
        · simp [h1]
        · exact ih r l hr h1
      · rw [splitOnTokF_cons_neg f r hd] at h
        cases hsp : splitOnTokF [c] f r with
        | nil => exact absurd hsp (splitOnTokF_ne_nil [c] f r)
        | cons l0 ls =>
          rw [hsp] at h
          rcases List.mem_cons.mp h with h1 | h1
          · subst h1
            intro hm
            rcases List.mem_cons.mp hm with h2 | h2
            · exact hd h2
            · exact ih r l0 hr (hsp ▸ List.mem_cons_self l0 ls) h2
          · exact ih r l hr (hsp ▸ List.mem_cons_of_mem l0 h1)

/-- Joining a single-element-separator split reassembles the input (fuel at
least the input length). -/
theorem joinSep_splitOnTokF {α : Type} [DecidableEq α] {c : α} :
    ∀ (f : Nat) (s : List α), s.length ≤ f →
      joinSep [c] (splitOnTokF [c] f s) = s := by
  intro f
  induction f with
  | zero =>
    intro s hf
    have : s = [] := List.length_eq_zero.mp (Nat.le_zero.mp hf)
    subst this
    rfl
  | succ f ih =>
    intro s hf
    cases s with
    | nil => rfl
    | cons d r =>
      have hr : r.length ≤ f := Nat.le_of_succ_le_succ (by simpa using hf)
      by_cases hd : c = d
      · rw [splitOnTokF_cons_pos f r hd]
        cases hsp : splitOnTokF [c] f r with
        | nil => exact absurd hsp (splitOnTokF_ne_nil [c] f r)
        | cons l0 ls =>
          have hjoin := ih r hr
          rw [hsp] at hjoin
          show [] ++ [c] ++ joinSep [c] (l0 :: ls) = d :: r
          rw [List.nil_append, List.singleton_append, hjoin, hd]
      · rw [splitOnTokF_cons_neg f r hd]
        cases hsp : splitOnTokF [c] f r with
        | nil => exact absurd hsp (splitOnTokF_ne_nil [c] f r)
        | cons l0 ls =>
          have hjoin := ih r hr
          rw [hsp] at hjoin
          cases ls with
          | nil =>
            show d :: l0 = d :: r
            rw [show l0 = r from hjoin]
          | cons l1 ls' =>
            show (d :: l0) ++ [c] ++ joinSep [c] (l1 :: ls') = d :: r
            have hj : l0 ++ [c] ++ joinSep [c] (l1 :: ls') = r := hjoin
            rw [List.cons_append, List.cons_append, hj]

/-- Elements of split pieces come from the input (any separator, any
fuel). -/
theorem mem_of_splitOnTokF {α : Type} [DecidableEq α] {sep : List α} :
    ∀ {f : Nat} {s l : List α}, l ∈ splitOnTokF sep f s → ∀ {x}, x ∈ l → x ∈ s := by
  intro f
  induction f with
  | zero =>
    intro s l hl x hx
    cases s with
    | nil =>
      simp [splitOnTokF] at hl
      subst hl
      exact absurd hx (by simp)
    | cons c r =>
      simp [splitOnTokF] at hl
      subst hl
      exact hx
  | succ f ih =>
    intro s l hl x hx
    cases s with
    | nil =>
      simp [splitOnTokF] at hl
      subst hl
      exact absurd hx (by simp)
    | cons c r =>
      by_cases hc : sep ≠ [] ∧ leadMatch sep (c :: r) = true
      · rw [show splitOnTokF sep (f + 1) (c :: r) =
          [] :: splitOnTokF sep f ((c :: r).drop sep.length) by
            simp only [splitOnTokF, if_pos hc]] at hl
        rcases List.mem_cons.mp hl with h1 | h1
        · subst h1; exact absurd hx (by simp)
        · exact List.mem_of_mem_drop (ih h1 hx)
      · rw [show splitOnTokF sep (f + 1) (c :: r) =
          (match splitOnTokF sep f r with
           | l :: ls => (c :: l) :: ls
           | [] => [[c]]) by simp only [splitOnTokF, if_neg hc]] at hl
        cases hsp : splitOnTokF sep f r with
        | nil => exact absurd hsp (splitOnTokF_ne_nil sep f r)
        | cons l0 ls =>
          rw [hsp] at hl
          rcases List.mem_cons.mp hl with h1 | h1
          · subst h1
            rcases List.mem_cons.mp hx with h2 | h2
            · exact h2 ▸ List.mem_cons_self c r
            · exact List.mem_cons_of_mem c
                (ih (hsp ▸ List.mem_cons_self l0 ls) h2)
          · exact List.mem_cons_of_mem c (ih (hsp ▸ List.mem_cons_of_mem l0 h1) hx)

/-- Elements of split pieces come from the input (wrapper form). -/
theorem mem_of_splitOnTok {α : Type} [DecidableEq α] {sep s l : List α}
    (hl : l ∈ splitOnTok sep s) {x : α} (hx : x ∈ l) : x ∈ s :=
  mem_of_splitOnTokF hl hx

/-- Splitting a list of the form `l ++ c :: rest` with `c ∉ l` peels off
`l` as the first piece (fuel at least the total length). -/
theorem splitOnTokF_app {α : Type} [DecidableEq α] {c : α} :
    ∀ (l : List α) (f : Nat) (rest : List α), c ∉ l →
      l.length + 1 + rest.length ≤ f →
      splitOnTokF [c] f (l ++ c :: rest) =
        l :: splitOnTokF [c] (f - (l.length + 1)) rest := by
  intro l
  induction l with
  | nil =>
    intro f rest _ hf
    cases f with
    | zero => exact absurd hf (by simp)
    | succ f =>
      rw [List.nil_append, splitOnTokF_cons_pos f rest rfl]
      simp
  | cons a l' ih =>
    intro f rest hnm hf
    cases f with
    | zero => exact absurd hf (by simp)
    | succ f =>
      have ha : ¬(c = a) := fun e => hnm (e ▸ List.mem_cons_self a l')
      have hl' : c ∉ l' := fun m => hnm (List.mem_cons_of_mem a m)
      have hf' : l'.length + 1 + rest.length ≤ f := by
        simp only [List.length_cons] at hf
        omega
      rw [List.cons_append, splitOnTokF_cons_neg f (l' ++ c :: rest) ha,
        ih f rest hl' hf']
      simp only [List.length_cons]
      have : f + 1 - (l'.length + 1 + 1) = f - (l'.length + 1) := by omega
      rw [this]

/-- Joining then splitting with a single-element separator recovers the
pieces, provided the separator occurs in none of them. -/
theorem splitOnTok_joinSep {α : Type} [DecidableEq α] {c : α} :
    ∀ (ls : List (List α)), ls ≠ [] → (∀ l ∈ ls, c ∉ l) →
      splitOnTok [c] (joinSep [c] ls) = ls := by
  intro ls
  induction ls with
  | nil => intro h _; exact absurd rfl h
  | cons l0 ls ih =>
    intro _ hno
    cases ls with
    | nil =>
      show splitOnTok [c] l0 = [l0]
      exact splitOnTokF_single l0.length l0 (hno l0 (List.mem_cons_self l0 []))
    | cons l1 ls' =>
      have hJ : joinSep [c] (l0 :: l1 :: ls') = l0 ++ c :: joinSep [c] (l1 :: ls') := by
        show l0 ++ [c] ++ joinSep [c] (l1 :: ls') = _
        rw [List.append_assoc, List.singleton_append]
      rw [hJ]
      unfold splitOnTok
      have hlen : (l0 ++ c :: joinSep [c] (l1 :: ls')).length =
          l0.length + 1 + (joinSep [c] (l1 :: ls')).length := by
        simp [List.length_append]
        omega
      rw [hlen, splitOnTokF_app l0 _ _ (hno l0 (List.mem_cons_self l0 _)) (le_refl _)]
      have : l0.length + 1 + (joinSep [c] (l1 :: ls')).length - (l0.length + 1) =
          (joinSep [c] (l1 :: ls')).length := by omega
      rw [this]
      have := ih (by simp) (fun l hl => hno l (List.mem_cons_of_mem l0 hl))
      unfold splitOnTok at this
      rw [this]

end Tkt

namespace Mdconv

open Tkt

/-- A metacharacter does not occur in metacharacter-free text. -/
theorem not_mem_of_plain {x : Char} (hx : metaChars.contains x = true)
    {s : List Char} (h : ∀ c ∈ s, plainChar c = true) : x ∉ s := by
  intro hm
  have := h x hm
  rw [plainChar, hx] at this
  exact Bool.noConfusion this

/-- Metacharacter-freeness passes to the tail. -/
theorem plain_tail {c : Char} {r : List Char}
    (h : ∀ x ∈ c :: r, plainChar x = true) : ∀ x ∈ r, plainChar x = true :=
  fun x hx => h x (List.mem_cons_of_mem c hx)

/-- `codeTry` cannot fire without a `{`. -/
theorem codeTry_none {s : List Char} (h : '\x7b' ∉ s) (a : Bool) :
    codeTry a s = none := by
  have e : leadMatch ['\x7b', 'c', 'o', 'd', 'e'] s = false :=
    leadMatch_false_of_not_mem _ h
  simp [codeTry, e]

/-- `noformatTry` cannot fire without a `{`. -/
theorem noformatTry_none {s : List Char} (h : '\x7b' ∉ s) (a : Bool) :
    noformatTry a s = none := by
  have e : leadMatch ['\x7b', 'n', 'o', 'f', 'o', 'r', 'm', 'a', 't', '\x7d'] s = false :=
    leadMatch_false_of_not_mem _ h
  simp [noformatTry, e]

/-- `panelTry` cannot fire without a `{`. -/
theorem panelTry_none {s : List Char} (h : '\x7b' ∉ s) (a : Bool) :
    panelTry a s = none := by
  have e : leadMatch ['\x7b', 'p', 'a', 'n', 'e', 'l'] s = false :=
    leadMatch_false_of_not_mem _ h
  simp [panelTry, e]

/-- `quoteTry` cannot fire without a `{`. -/
theorem quoteTry_none {s : List Char} (h : '\x7b' ∉ s) (a : Bool) :
    quoteTry a s = none := by
  have e : leadMatch ['\x7b', 'q', 'u', 'o', 't', 'e', '\x7d'] s = false :=
    leadMatch_false_of_not_mem _ h
  simp [quoteTry, e]

/-- `effectTry` cannot fire when its delimiter does not occur. -/
theorem effectTry_none {d : Char} (wrap : List Char) {s : List Char}
    (h : d ∉ s) (a : Bool) : effectTry d wrap a s = none := by
  cases s with
  | nil => rfl
  | cons c t =>
    have hc : ¬(c = d) := fun e => h (e ▸ List.mem_cons_self c t)
    cases t with
    | nil => simp [effectTry, hc]
    | cons d' t' =>
      have hd' : ¬(d' = d) := fun e =>
        h (e ▸ List.mem_cons_of_mem c (List.mem_cons_self d' t'))
      simp [effectTry, hc, hd']

/-- `simpleDelimTry` cannot fire when its delimiter does not occur. -/
theorem simpleDelimTry_none {d : Char} (nl : Bool) (lw rw : List Char)
    {s : List Char} (h : d ∉ s) (a : Bool) :
    simpleDelimTry d nl lw rw a s = none := by
  cases s with
  | nil => rfl
  | cons c t =>
    have hc : ¬(c = d) := fun e => h (e ▸ List.mem_cons_self c t)
    simp [simpleDelimTry, hc]

/-- `doubleDelimTry` cannot fire when its opening delimiter does not
occur. -/
theorem doubleDelimTry_none {o : Char} (c x : Char) (lw rw : List Char)
    {s : List Char} (h : o ∉ s) (a : Bool) :
    doubleDelimTry o c x lw rw a s = none := by
  match s with
  | [] => rfl
  | [e] => rfl
  | e1 :: e2 :: t =>
    have hc : ¬(e1 = o) := fun e => h (e ▸ List.mem_cons_self e1 (e2 :: t))
    simp [doubleDelimTry, hc]

/-- `linkPipeTry` cannot fire without a `[`. -/
theorem linkPipeTry_none {s : List Char} (h : '[' ∉ s) (a : Bool) :
    linkPipeTry a s = none := by
  cases s with
  | nil => rfl
  | cons c t =>
    have hc : ¬(c = '[') := fun e => h (e ▸ List.mem_cons_self c t)
    simp [linkPipeTry, hc]

/-- `linkBareTry` cannot fire without a `[`. -/
theorem linkBareTry_none {s : List Char} (h : '[' ∉ s) (a : Bool) :
    linkBareTry a s = none := by
  cases s with
  | nil => rfl
  | cons c t =>
    have hc : ¬(c = '[') := fun e => h (e ▸ List.mem_cons_self c t)
    simp [linkBareTry, hc]

/-- `lineTagTry` cannot fire on text none of whose lines starts with the
tag. -/
theorem lineTagTry_none (tag md : List Char) :
    ∀ (a : Bool) (s : List Char), tagFreeB tag a s = true →
      lineTagTry tag md a s = none := by
  intro a s h
  cases s with
  | nil =>
    cases tag with
    | nil => simp [lineTagTry]
    | cons p ps => simp [lineTagTry, leadMatch]
  | cons c r =>
    have hna : ¬(a = true ∧ tag ≠ [] ∧ leadMatch tag (c :: r) = true) := by
      intro ⟨ha, _, hlm⟩
      simp only [tagFreeB, Bool.and_eq_true] at h
      rcases h with ⟨h1, _⟩
      rw [ha, hlm] at h1
      simp at h1
    simp only [lineTagTry]
    rw [if_neg (by simpa using hna)]

/-- `tagFreeB` passes to the tail. -/
theorem tagFreeB_tail (tag : List Char) {a : Bool} {c : Char} {r : List Char}
    (h : tagFreeB tag a (c :: r) = true) : tagFreeB tag (c == '\n') r = true := by
  simp only [tagFreeB, Bool.and_eq_true] at h
  exact h.2

/-- `lineTagPass` is the identity on text none of whose lines starts with
the tag. -/
theorem lineTagPass_id (tag md : List Char) {s : List Char}
    (h : tagFreeB tag true s = true) : lineTagPass tag md s = s :=
  scanSt_eq_self (fun a s' => tagFreeB tag a s' = true)
    (fun _ _ _ h' => tagFreeB_tail tag h')
    (lineTagTry_none tag md) s.length true s h

/-- `convertCodeBlocks` is the identity on metacharacter-free text. -/
theorem convertCodeBlocks_id {s : List Char}
    (h : ∀ c ∈ s, plainChar c = true) : convertCodeBlocks s = s := by
  have hb : '\x7b' ∉ s := not_mem_of_plain (by decide) h
  have P1 := scanSt_eq_self (fun _ s' => '\x7b' ∉ s')
    (fun _ c _ h' m => h' (List.mem_cons_of_mem c m))
    (fun a s' h' => codeTry_none h' a) s.length true s hb
  unfold convertCodeBlocks
  rw [P1]
  exact scanSt_eq_self (fun _ s' => '\x7b' ∉ s')
    (fun _ c _ h' m => h' (List.mem_cons_of_mem c m))
    (fun a s' h' => noformatTry_none h' a) s.length true s hb

/-- `convertHeadings` is the identity when no line starts with a heading
tag. -/
theorem convertHeadings_id {s : List Char}
    (h1 : tagFreeB ("h1.".toList) true s = true)
    (h2 : tagFreeB ("h2.".toList) true s = true)
    (h3 : tagFreeB ("h3.".toList) true s = true)
    (h4 : tagFreeB ("h4.".toList) true s = true)
    (h5 : tagFreeB ("h5.".toList) true s = true)
    (h6 : tagFreeB ("h6.".toList) true s = true) :
    convertHeadings s = s := by
  show lineTagPass ("h6.".toList) ("######".toList)
    (lineTagPass ("h5.".toList) ("#####".toList)
      (lineTagPass ("h4.".toList) ("####".toList)
        (lineTagPass ("h3.".toList) ("###".toList)
          (lineTagPass ("h2.".toList) ("##".toList)
            (lineTagPass ("h1.".toList) ("#".toList) s))))) = s
  rw [lineTagPass_id _ _ h1, lineTagPass_id _ _ h2, lineTagPass_id _ _ h3,
    lineTagPass_id _ _ h4, lineTagPass_id _ _ h5, lineTagPass_id _ _ h6]

/-- `convertListsLine` is the identity on a line containing neither `#` nor
`*`. -/
theorem convertListsLine_id {l : List Char} (hh : '#' ∉ l) (hs : '*' ∉ l) :
    convertListsLine l = l := by
  have e1 : leadMatch ['#'] l = false := leadMatch_false_of_not_mem [] hh
  have e2 : leadMatch ['#', ' '] l = false := leadMatch_false_of_not_mem [' '] hh
  have e3 : leadMatch ['#', '#', ' '] l = false :=
    leadMatch_false_of_not_mem ['#', ' '] hh
  have e4 : leadMatch ['#', '#', '#', ' '] l = false :=
    leadMatch_false_of_not_mem ['#', '#', ' '] hh
  have e5 : leadMatch ['*', ' '] l = false := leadMatch_false_of_not_mem [' '] hs
  have e6 : leadMatch ['*', '*', ' '] l = false :=
    leadMatch_false_of_not_mem ['*', ' '] hs
  have e7 : leadMatch ['*', '*', '*', ' '] l = false :=
    leadMatch_false_of_not_mem ['*', '*', ' '] hs
  simp [convertListsLine, e1, e2, e3, e4, e5, e6, e7]

/-- `convertLists` is the identity on metacharacter-free text. -/
theorem convertLists_id {s : List Char}
    (h : ∀ c ∈ s, plainChar c = true) : convertLists s = s := by
  unfold convertLists
  have hmap : (splitOnTok ['\n'] s).map convertListsLine = splitOnTok ['\n'] s := by
    have := List.map_congr_left (l := splitOnTok ['\n'] s)
      (f := convertListsLine) (g := id) ?_
    · simpa using this
    · intro l hl
      have hsub : ∀ x ∈ l, x ∈ s := fun x hx => mem_of_splitOnTok hl hx
      exact convertListsLine_id
        (fun m => (not_mem_of_plain (by decide) h) (hsub '#' m))
        (fun m => (not_mem_of_plain (by decide) h) (hsub '*' m))
  rw [hmap]
  exact joinSep_splitOnTokF s.length s (le_refl _)

end Mdconv

namespace Mdconv

open Tkt

/-- Identity of a stateless scanner whose trigger character is absent. -/
theorem scanSt_id_of_not_mem {try_ : Bool → List Char → Option (List Char × List Char)}
    {d : Char} (hnone : ∀ (a : Bool) (s : List Char), d ∉ s → try_ a s = none)
    {s : List Char} (h : d ∉ s) (f : Nat) (a : Bool) : scanSt try_ f a s = s :=
  scanSt_eq_self (fun _ s' => d ∉ s')
    (fun _ c _ h' m => h' (List.mem_cons_of_mem c m))
    (fun a' s' h' => hnone a' s' h') f a s h

/-- `convertTextFormatting` is the identity on metacharacter-free text. -/
theorem convertTextFormatting_id {s : List Char}
    (h : ∀ c ∈ s, plainChar c = true) : convertTextFormatting s = s := by
  have hstar : '*' ∉ s := not_mem_of_plain (by decide) h
  have hund : '_' ∉ s := not_mem_of_plain (by decide) h
  have hplus : '+' ∉ s := not_mem_of_plain (by decide) h
  have hdash : '-' ∉ s := not_mem_of_plain (by decide) h
  have hbrace : '\x7b' ∉ s := not_mem_of_plain (by decide) h
  have hcaret : '^' ∉ s := not_mem_of_plain (by decide) h
  have htilde : '~' ∉ s := not_mem_of_plain (by decide) h
  show scanSt (simpleDelimTry '~' false [] []) _ true
    (scanSt (simpleDelimTry '^' false [] []) _ true
      (scanSt (doubleDelimTry '\x7b' '\x7d' '\x7d' ("\x60".toList) ("\x60".toList)) _ true
        (scanSt (effectTry '-' ("~~".toList)) _ true
          (scanSt (simpleDelimTry '+' true ("__".toList) ("__".toList)) _ true
            (scanSt (simpleDelimTry '_' true ("*".toList) ("*".toList)) _ true
              (scanSt (effectTry '*' ("**".toList)) _ true s)))))) = s
  rw [scanSt_id_of_not_mem (fun a s' h' => effectTry_none _ h' a) hstar,
    scanSt_id_of_not_mem (fun a s' h' => simpleDelimTry_none _ _ _ h' a) hund,
    scanSt_id_of_not_mem (fun a s' h' => simpleDelimTry_none _ _ _ h' a) hplus,
    scanSt_id_of_not_mem (fun a s' h' => effectTry_none _ h' a) hdash,
    scanSt_id_of_not_mem (fun a s' h' => doubleDelimTry_none _ _ _ _ h' a) hbrace,
    scanSt_id_of_not_mem (fun a s' h' => simpleDelimTry_none _ _ _ h' a) hcaret,
    scanSt_id_of_not_mem (fun a s' h' => simpleDelimTry_none _ _ _ h' a) htilde]

/-- `convertPanels` is the identity on metacharacter-free text. -/
theorem convertPanels_id {s : List Char}
    (h : ∀ c ∈ s, plainChar c = true) : convertPanels s = s :=
  scanSt_id_of_not_mem (fun a s' h' => panelTry_none h' a)
    (not_mem_of_plain (by decide) h) s.length true

/-- `convertQuotes` is the identity on metacharacter-free text none of whose
lines starts with `bq.`. -/
theorem convertQuotes_id {s : List Char}
    (h : ∀ c ∈ s, plainChar c = true)
    (hbq : tagFreeB ("bq.".toList) true s = true) : convertQuotes s = s := by
  show lineTagPass ("bq.".toList) (">".toList)
    (scanSt quoteTry s.length true s) = s
  rw [scanSt_id_of_not_mem (fun a s' h' => quoteTry_none h' a)
    (not_mem_of_plain (by decide) h), lineTagPass_id _ _ hbq]

/-- `convertLinks` is the identity on metacharacter-free text. -/
theorem convertLinks_id {s : List Char}
    (h : ∀ c ∈ s, plainChar c = true) : convertLinks s = s := by
  have hb : '[' ∉ s := not_mem_of_plain (by decide) h
  show scanSt linkBareTry _ true (scanSt linkPipeTry s.length true s) = s
  rw [scanSt_id_of_not_mem (fun a s' h' => linkPipeTry_none h' a) hb,
    scanSt_id_of_not_mem (fun a s' h' => linkBareTry_none h' a) hb]

/-- The table loop passes pipe-free lines through unchanged (any initial
state). -/
theorem convertTablesLoop_id :
    ∀ (ls : List (List Char)) (b : Bool), (∀ l ∈ ls, '|' ∉ l) →
      convertTablesLoop ls b = ls := by
  intro ls
  induction ls with
  | nil => intro b _; rfl
  | cons line ls ih =>
    intro b hno
    have hline : '|' ∉ line := hno line (List.mem_cons_self line ls)
    have htr : '|' ∉ trimSpaceGo line := fun m => hline (mem_of_mem_trimSpaceGo m)
    have e1 : leadMatch ['|', '|'] (trimSpaceGo line) = false :=
      leadMatch_false_of_not_mem ['|'] htr
    have e2 : leadMatch ['|'] (trimSpaceGo line) = false :=
      leadMatch_false_of_not_mem [] htr
    simp only [convertTablesLoop]
    rw [show ("||".toList) = ['|', '|'] from rfl, show ("|".toList) = ['|'] from rfl,
      e1, e2]
    simp only [Bool.false_eq_true, false_and, if_false]
    exact congrArg (line :: ·) (ih false (fun l hl => hno l (List.mem_cons_of_mem line hl)))

/-- `convertTables` is the identity on metacharacter-free text. -/
theorem convertTables_id {s : List Char}
    (h : ∀ c ∈ s, plainChar c = true) : convertTables s = s := by
  unfold convertTables
  rw [convertTablesLoop_id _ false (fun l hl hx =>
    (not_mem_of_plain (by decide) h) (mem_of_splitOnTok hl hx))]
  exact joinSep_splitOnTokF s.length s (le_refl _)

/-- The pipeline's newline normalisation is the identity on text without
carriage returns. -/
theorem normalize_id {s : List Char} (h : ∀ c ∈ s, plainChar c = true) :
    replaceAll ("\r".toList) ("\n".toList)
      (replaceAll ("\r\n".toList) ("\n".toList) s) = s := by
  have hr : '\r' ∉ s := not_mem_of_plain (by decide) h
  show replaceAllF ['\r'] ('\n' :: []) _ (replaceAllF ['\r', '\n'] ('\n' :: []) _ s) = s
  rw [replaceAllF_eq_self _ _ _ s hr, replaceAllF_eq_self _ _ _ s hr]

end Mdconv

/-- C6.  For every input that is plain text in the spec's sense — no
wiki-markup metacharacter (`*`, `_`, `+`, `-`, `{`, `}`, `[`, `]`, `|`, `#`,
`^`, `~`), no carriage return, and no line starting with an `h1.`-style
heading prefix or the `bq.` prefix — the wiki-markup-to-Markdown conversion
returns the input unchanged: `ConvertJiraToMarkdown x = x`. -/
theorem tkt_C6_plain_identity (x : List Char)
    (h : Mdconv.plainTextB x = true) : Mdconv.ConvertJiraToMarkdown x = x := by
  simp only [Mdconv.plainTextB, Bool.and_eq_true] at h
  obtain ⟨⟨⟨⟨⟨⟨⟨hall, h1⟩, h2⟩, h3⟩, h4⟩, h5⟩, h6⟩, hbq⟩ := h
  have hplain : ∀ c ∈ x, Mdconv.plainChar c = true := List.all_eq_true.mp hall
  by_cases hx : x = []
  · simp [Mdconv.ConvertJiraToMarkdown, hx]
  · show (if x = [] then x else _) = x
    rw [if_neg hx]
    show Mdconv.convertTables (Mdconv.convertLinks (Mdconv.convertQuotes
      (Mdconv.convertPanels (Mdconv.convertTextFormatting (Mdconv.convertLists
        (Mdconv.convertHeadings (Mdconv.convertCodeBlocks
          (Tkt.replaceAll ("\r".toList) ("\n".toList)
            (Tkt.replaceAll ("\r\n".toList) ("\n".toList) x))))))))) = x
    rw [Mdconv.normalize_id hplain, Mdconv.convertCodeBlocks_id hplain,
      Mdconv.convertHeadings_id h1 h2 h3 h4 h5 h6, Mdconv.convertLists_id hplain,
      Mdconv.convertTextFormatting_id hplain, Mdconv.convertPanels_id hplain,
      Mdconv.convertQuotes_id hplain hbq, Mdconv.convertLinks_id hplain,
      Mdconv.convertTables_id hplain]

/-- Witness for C6 at a concrete plain-text input. -/
theorem tkt_C6_plain_identity_witness :
    Mdconv.plainTextB ("hello world.\nsecond line".toList) = true ∧
    Mdconv.ConvertJiraToMarkdown ("hello world.\nsecond line".toList) =
      "hello world.\nsecond line".toList :=
  ⟨by decide, tkt_C6_plain_identity _ (by decide)⟩

/-- C1.  Evaluating the conversion at the failing input: the body of
`{code}a *b* c{code}` is emitted inside the Markdown fence, but the
subsequent text-formatting step rewrites the `*b*` inside it to `**b**`, so
the code body is not left literal (the claim's protected output differs). -/
theorem tkt_C1_code_eval :
    Mdconv.ConvertJiraToMarkdown ("\x7bcode\x7da *b* c\x7bcode\x7d".toList) =
      "\x60\x60\x60\na **b** c\n\x60\x60\x60".toList ∧
    ¬("\x60\x60\x60\na **b** c\n\x60\x60\x60".toList =
      "\x60\x60\x60\na *b* c\n\x60\x60\x60".toList) := by
  decide

/-- C2 counterexample.  The wiki ordered-list line `# a` is not converted:
the list-conversion step returns it unchanged, and in particular the output
line does not start with `1. ` as the claim requires. -/
theorem tkt_C2_counterexample :
    Mdconv.convertLists ("# a".toList) = "# a".toList ∧
    Tkt.leadMatch ("1. ".toList) (Mdconv.convertLists ("# a".toList)) = false := by
  decide

/-- C4.  Evaluating the conversion at the failing input: `[a|b]` is first
rewritten to `[a](b)` by the piped-link rule, after which the bare-link rule
re-matches the `[a]` part and produces `[a](a)(b)` instead of the documented
`[a](b)`. -/
theorem tkt_C4_code_eval :
    Mdconv.ConvertJiraToMarkdown ("[a|b]".toList) = "[a](a)(b)".toList ∧
    ¬("[a](a)(b)".toList = "[a](b)".toList) := by
  decide

/-- C5 counterexample.  Markdown strong emphasis `**x**` is emitted as the
wiki italic form `_x_` (the italic rule re-matches the `*x*` produced by the
bold rule), and plain emphasis `*y*` is likewise emitted as `_y_`; neither
occurrence yields the wiki bold `*text*` the claim states. -/
theorem tkt_C5_counterexample :
    Mdconv.convertMarkdownTextFormatting ("**x**".toList) = "_x_".toList ∧
    Mdconv.convertMarkdownTextFormatting ("*y*".toList) = "_y_".toList ∧
    ¬("_x_".toList = "*x*".toList) := by
  decide

/-- C7.  Both conversion directions map the empty string to the empty
string: `ConvertJiraToMarkdown "" = ""`, and `ToJiraMD "" = ""` for every
behaviour of the underlying CommonMark renderer. -/
theorem tkt_C7_empty :
    Mdconv.ConvertJiraToMarkdown [] = [] ∧
    ∀ render : List Char → List Char, MdGo.ToJiraMD render [] = [] :=
  ⟨rfl, fun _ => rfl⟩

/-- Witness for C7 with the renderer instantiated. -/
theorem tkt_C7_empty_witness :
    Mdconv.ConvertJiraToMarkdown [] = [] ∧ MdGo.ToJiraMD id [] = [] :=
  ⟨tkt_C7_empty.1, tkt_C7_empty.2 id⟩

/-- C8.  The single line `* *important* item` converts to
`- **important** item`: the leading `*` becomes a list dash and the inner
span becomes bold, without the list marker being absorbed. -/
theorem tkt_C8_bold_list :
    Mdconv.ConvertJiraToMarkdown ("* *important* item".toList) =
      "- **important** item".toList := by
  decide

namespace Mdconv

open Tkt

/-- Elements of `dropLead` come from the input. -/
theorem mem_of_dropLead {p l : List Char} {x : Char}
    (h : x ∈ dropLead p l) : x ∈ l := by
  unfold dropLead at h
  split at h
  · exact List.mem_of_mem_drop h
  · exact h

/-- The per-line list conversion never introduces a newline. -/
theorem convertListsLine_no_nl {l : List Char} (h : '\n' ∉ l) :
    '\n' ∉ convertListsLine l := by
  unfold convertListsLine
  split_ifs <;>
    first
      | exact h
      | (intro hm
         rcases List.mem_append.mp hm with hm' | hm'
         · exact absurd hm' (by decide)
         · exact h (mem_of_dropLead hm'))

end Mdconv

/-- C2 amended.  In the list-conversion step every line starting with `#` —
including wiki ordered-list lines such as `# item` — is passed through
unchanged (the ordered-list branches are unreachable, so no `1. ` is ever
produced), while the unordered markers convert as `* ` → `- `,
`** ` → two-space `- `, and `*** ` → four-space `- `; the conversion acts
line by line (splitting its output on newlines recovers the per-line map). -/
theorem tkt_C2_amended :
    (∀ x : List Char, Tkt.splitOnTok ['\n'] (Mdconv.convertLists x) =
      (Tkt.splitOnTok ['\n'] x).map Mdconv.convertListsLine) ∧
    (∀ l : List Char, Tkt.leadMatch ("#".toList) l = true →
      Mdconv.convertListsLine l = l) ∧
    (∀ r : List Char, Mdconv.convertListsLine ("* ".toList ++ r) =
      "- ".toList ++ r) ∧
    (∀ r : List Char, Mdconv.convertListsLine ("** ".toList ++ r) =
      "  - ".toList ++ r) ∧
    (∀ r : List Char, Mdconv.convertListsLine ("*** ".toList ++ r) =
      "    - ".toList ++ r) := by
  refine ⟨?_, ?_, ?_, ?_, ?_⟩
  · intro x
    show Tkt.splitOnTok ['\n']
      (Tkt.joinSep ['\n'] ((Tkt.splitOnTok ['\n'] x).map Mdconv.convertListsLine)) = _
    apply Tkt.splitOnTok_joinSep
    · intro he
      exact Tkt.splitOnTokF_ne_nil ['\n'] x.length x (List.map_eq_nil_iff.mp he)
    · intro l hl
      rcases List.mem_map.mp hl with ⟨l0, hl0, rfl⟩
      exact Mdconv.convertListsLine_no_nl
        (Tkt.splitOnTokF_pieces x.length x l0 (le_refl _) hl0)
  · intro l h
    have h' : Tkt.leadMatch ['#'] l = true := h
    simp [Mdconv.convertListsLine, h']
  · intro r
    simp [Mdconv.convertListsLine, Tkt.leadMatch, Tkt.dropLead]
  · intro r
    simp [Mdconv.convertListsLine, Tkt.leadMatch, Tkt.dropLead]
  · intro r
    simp [Mdconv.convertListsLine, Tkt.leadMatch, Tkt.dropLead]

/-- Witness for C2 amended at concrete inputs. -/
theorem tkt_C2_amended_witness :
    Tkt.splitOnTok ['\n'] (Mdconv.convertLists ("# a\n* b".toList)) =
      (Tkt.splitOnTok ['\n'] ("# a\n* b".toList)).map Mdconv.convertListsLine ∧
    Mdconv.convertListsLine ("# a".toList) = "# a".toList ∧
    Mdconv.convertListsLine ("* ".toList ++ "item".toList) =
      "- ".toList ++ "item".toList :=
  ⟨tkt_C2_amended.1 _, tkt_C2_amended.2.1 _ (by decide),
    tkt_C2_amended.2.2.1 _⟩

namespace Tkt

/-- `takeWhile` passes over a block that satisfies the predicate. -/
theorem takeWhile_append_all {α : Type} {p : α → Bool} :
    ∀ {t u : List α}, (∀ c ∈ t, p c = true) →
      (t ++ u).takeWhile p = t ++ u.takeWhile p := by
  intro t
  induction t with
  | nil => intro u _; rfl
  | cons c t' ih =>
    intro u h
    have hc : p c = true := h c (List.mem_cons_self c t')
    simp only [List.cons_append, List.takeWhile_cons, hc, if_true]
    rw [ih (fun x hx => h x (List.mem_cons_of_mem c hx))]

/-- `get?` past an appended block. -/
theorem get?_append_add {α : Type} :
    ∀ (t u : List α) (k : Nat), (t ++ u).get? (t.length + k) = u.get? k := by
  intro t
  induction t with
  | nil => intro u k; simp
  | cons c t' ih =>
    intro u k
    have : t'.length + 1 + k = (t'.length + k) + 1 := by omega
    simp only [List.cons_append, List.length_cons, this, List.get?_cons_succ]
    exact ih u k

/-- `drop` past an appended block. -/
theorem drop_append_add {α : Type} :
    ∀ (t u : List α) (k : Nat), (t ++ u).drop (t.length + k) = u.drop k := by
  intro t
  induction t with
  | nil => intro u k; simp
  | cons c t' ih =>
    intro u k
    have : t'.length + 1 + k = (t'.length + k) + 1 := by omega
    simp only [List.cons_append, List.length_cons, this, List.drop_succ_cons]
    exact ih u k

end Tkt

namespace Mdconv

open Tkt

/-- The `\*\*([^*]+)\*\*` rule fires on a single well-formed occurrence and
consumes the whole span. -/
theorem doubleDelimTry_star {t : List Char} (h1 : t ≠ []) (h2 : '*' ∉ t)
    (a : Bool) :
    doubleDelimTry '*' '*' '*' ("*".toList) ("*".toList) a
      ('*' :: '*' :: (t ++ ['*', '*'])) =
      some ('*' :: (t ++ ['*']), []) := by
  have hall : ∀ c ∈ t, (!(c = '*')) = true := by
    intro c hc
    simp only [Bool.not_eq_true']
    exact decide_eq_false (fun e => h2 (e ▸ hc))
  have htake : (t ++ ['*', '*']).takeWhile (fun y => !(y = '*')) = t := by
    rw [takeWhile_append_all hall]
    simp [List.takeWhile_cons]
  have hg1 : (t ++ ['*', '*']).get? t.length = some '*' := by
    have := get?_append_add t ['*', '*'] 0
    simp at this
    simp [this]
  have hg2 : (t ++ ['*', '*']).get? (t.length + 1) = some '*' := by
    have := get?_append_add t ['*', '*'] 1
    simp at this
    simp [this]
  have hdrop : (t ++ ['*', '*']).drop (t.length + 2) = [] := by
    have := drop_append_add t ['*', '*'] 2
    simp at this
    simp [this]
  simp only [doubleDelimTry, htake, hg1, hg2, hdrop]
  simp [h1]

/-- The `\*([^*]+)\*` rule fires on a single well-formed occurrence and
consumes the whole span. -/
theorem simpleDelimTry_star {t : List Char} (h1 : t ≠ []) (h2 : '*' ∉ t)
    (lw rw : List Char) (a : Bool) :
    simpleDelimTry '*' false lw rw a ('*' :: (t ++ ['*'])) =
      some (lw ++ t ++ rw, []) := by
  have hall : ∀ c ∈ t, (!(c == '*') && (!false || !(c == '\n'))) = true := by
    intro c hc
    have he : (c == '*') = false := beq_eq_false_iff_ne.mpr (fun e => h2 (e ▸ hc))
    simp [he]
  have htake : (t ++ ['*']).takeWhile
      (fun x => !(x == '*') && (!false || !(x == '\n'))) = t := by
    rw [takeWhile_append_all hall]
    simp [List.takeWhile_cons]
  have hg1 : (t ++ ['*']).get? t.length = some '*' := by
    have := get?_append_add t ['*'] 0
    simp at this
    simp [this]
  have hdrop : (t ++ ['*']).drop (t.length + 1) = [] := by
    have := drop_append_add t ['*'] 1
    simp at this
    simp [this]
  simp only [simpleDelimTry, htake, hg1, hdrop]
  simp [h1]

end Mdconv

namespace Mdconv

open Tkt

/-- The `\*\*…\*\*` scanner passes over `t ++ [*]` when `t` is
asterisk-free: no two adjacent asterisks exist, so the opening `**` never
matches. -/
theorem doubleDelimStar_tail_id :
    ∀ (f : Nat) (a : Bool) (t : List Char), '*' ∉ t →
      scanSt (doubleDelimTry '*' '*' '*' ("*".toList) ("*".toList)) f a
        (t ++ ['*']) = t ++ ['*'] := by
  intro f
  induction f with
  | zero => intro a t _; cases t <;> rfl
  | succ f ih =>
    intro a t h
    cases t with
    | nil =>
      rw [List.nil_append,
        scanSt_cons_none f (by rfl :
          doubleDelimTry '*' '*' '*' ("*".toList) ("*".toList) a ['*'] = none),
        scanSt_nil]
    | cons c t' =>
      have hc : ¬(c = '*') := fun e => h (e ▸ List.mem_cons_self c t')
      have ht' : '*' ∉ t' := fun m => h (List.mem_cons_of_mem c m)
      have hnone : doubleDelimTry '*' '*' '*' ("*".toList) ("*".toList) a
          (c :: (t' ++ ['*'])) = none := by
        cases t' <;> simp [doubleDelimTry, hc]
      rw [List.cons_append, scanSt_cons_none f hnone, ih _ t' ht']

end Mdconv

/-- C5 amended.  In the Markdown-to-wiki direction both strong emphasis
`**text**` and plain emphasis `*text*` are emitted as the underscore italic
form `_text_`, not as wiki bold `*text*`: the bold rule first rewrites
`**text**` to `*text*`, and the italic rule then rewrites every single-starred
span — including the output of the bold rule — to `_text_` (for any
non-empty `text` free of `*` and backticks). -/
theorem tkt_C5_amended (t : List Char) (h1 : t ≠ []) (h2 : '*' ∉ t)
    (h3 : '\x60' ∉ t) :
    Mdconv.convertMarkdownTextFormatting ('*' :: '*' :: (t ++ ['*', '*'])) =
      '_' :: (t ++ ['_']) ∧
    Mdconv.convertMarkdownTextFormatting ('*' :: (t ++ ['*'])) =
      '_' :: (t ++ ['_']) := by
  have hital : ∀ f, Tkt.scanSt (Mdconv.simpleDelimTry '*' false
      ("_".toList) ("_".toList)) (f + 1) true ('*' :: (t ++ ['*'])) =
      '_' :: (t ++ ['_']) := by
    intro f
    rw [Tkt.scanSt_cons_some f
      (show Mdconv.simpleDelimTry '*' false ("_".toList) ("_".toList) true
        ('*' :: (t ++ ['*'])) = some ("_".toList ++ t ++ "_".toList, []) from
        Mdconv.simpleDelimTry_star h1 h2 _ _ true), Tkt.scanSt_nil]
    simp
  have hmid : ∀ x : List Char, x = '*' :: (t ++ ['*']) →
      Tkt.scanSt (Mdconv.simpleDelimTry '\x60' false
        ("\x7b\x7b".toList) ("\x7d\x7d".toList))
        (Tkt.scanSt (Mdconv.simpleDelimTry '*' false ("_".toList) ("_".toList))
          x.length true x).length true
        (Tkt.scanSt (Mdconv.simpleDelimTry '*' false ("_".toList) ("_".toList))
          x.length true x) = '_' :: (t ++ ['_']) := by
    intro x hx
    subst hx
    have hlen : ('*' :: (t ++ ['*'])).length = (t.length + 1) + 1 := by
      simp [List.length_append]
    rw [hlen, hital (t.length + 1)]
    have hbt : '\x60' ∉ '_' :: (t ++ ['_']) := by
      intro hm
      rcases List.mem_cons.mp hm with h' | h'
      · exact absurd h' (by decide)
      · rcases List.mem_append.mp h' with h'' | h''
        · exact h3 h''
        · exact absurd h'' (by decide)
    exact Mdconv.scanSt_id_of_not_mem
      (fun a s' hs => Mdconv.simpleDelimTry_none _ _ _ hs a) hbt _ true
  constructor
  · show Tkt.scanSt (Mdconv.simpleDelimTry '\x60' false _ _) _ true
      (Tkt.scanSt (Mdconv.simpleDelimTry '*' false _ _) _ true
        (Tkt.scanSt (Mdconv.doubleDelimTry '*' '*' '*' _ _) _ true
          ('*' :: '*' :: (t ++ ['*', '*'])))) = _
    have hlen2 : ('*' :: '*' :: (t ++ ['*', '*'])).length = (t.length + 3) + 1 := by
      simp [List.length_append]
    have hbold : Tkt.scanSt (Mdconv.doubleDelimTry '*' '*' '*'
        ("*".toList) ("*".toList)) (('*' :: '*' :: (t ++ ['*', '*'])).length) true
        ('*' :: '*' :: (t ++ ['*', '*'])) = '*' :: (t ++ ['*']) := by
      rw [hlen2, Tkt.scanSt_cons_some (t.length + 3)
        (Mdconv.doubleDelimTry_star h1 h2 true), Tkt.scanSt_nil]
      simp
    rw [hbold]
    exact hmid _ rfl
  · show Tkt.scanSt (Mdconv.simpleDelimTry '\x60' false _ _) _ true
      (Tkt.scanSt (Mdconv.simpleDelimTry '*' false _ _) _ true
        (Tkt.scanSt (Mdconv.doubleDelimTry '*' '*' '*' _ _) _ true
          ('*' :: (t ++ ['*'])))) = _
    have hlen3 : ('*' :: (t ++ ['*'])).length = (t.length + 1) + 1 := by
      simp [List.length_append]
    have hbold : Tkt.scanSt (Mdconv.doubleDelimTry '*' '*' '*'
        ("*".toList) ("*".toList)) (('*' :: (t ++ ['*'])).length) true
        ('*' :: (t ++ ['*'])) = '*' :: (t ++ ['*']) := by
      rcases t with _ | ⟨c, t'⟩
      · exact absurd rfl h1
      · have hc : ¬(c = '*') := fun e => h2 (e ▸ List.mem_cons_self c t')
        have hnone : Mdconv.doubleDelimTry '*' '*' '*' ("*".toList) ("*".toList)
            true ('*' :: ((c :: t') ++ ['*'])) = none := by
          simp [Mdconv.doubleDelimTry, hc]
        rw [hlen3, Tkt.scanSt_cons_none _ hnone,
          Mdconv.doubleDelimStar_tail_id _ _ (c :: t') h2]
    rw [hbold]
    exact hmid _ rfl

/-- Witness for C5 amended at `text = "x"`. -/
theorem tkt_C5_amended_witness :
    Mdconv.convertMarkdownTextFormatting ('*' :: '*' :: (['x'] ++ ['*', '*'])) =
      '_' :: (['x'] ++ ['_']) ∧
    Mdconv.convertMarkdownTextFormatting ('*' :: (['x'] ++ ['*'])) =
      '_' :: (['x'] ++ ['_']) :=
  tkt_C5_amended ['x'] (by decide) (by decide) (by decide)

/-- C3.  Evaluating the tokenizing parser at the failing input: on the line
`*a.*hx` the position of `h` is classified as a heading (byte 2 is `.`), the
heading branch then scans for a `.` that does not exist, and the slice
`line[beg:end+1]` with `end = len(line)` is out of range — a runtime panic,
so the conversion is not total. -/
theorem tkt_C3_panic_eval :
    Jirawiki.ParseE (Jirawiki.asciiB "*a.*hx") =
      Except.error Jirawiki.GoErr.panicRange ∧
    Jirawiki.tokenizeE (Jirawiki.asciiB "*a.*hx") =
      Except.error Jirawiki.GoErr.panicRange := by
  decide

/-- C9 counterexample.  On the line `あ[x]` (bytes
`[227, 129, 130, 91, 120, 93]`) the tokenizer produces the reference-link
token for the span `[x]` with `startIdx = 3` and `endIdx = 5` — byte
offsets — while the rune sequence of the line is `[あ, [, x, ]]`, in which
`[` sits at index 1; slicing the rune sequence with the token's boundaries
selects `[']']`, not the matched span, refuting the claim that the indices
are rune indices. -/
theorem tkt_C9_counterexample :
    Jirawiki.tokenizeE [227, 129, 130, 91, 120, 93] =
      Except.ok [⟨[91, 120, 93], Jirawiki.Fam.refLink, none, 3, 5⟩] ∧
    (Jirawiki.utf8Decode [227, 129, 130, 91, 120, 93]).get? 1 = some 91 ∧
    ((Jirawiki.utf8Decode [227, 129, 130, 91, 120, 93]).drop 3).take (5 + 1 - 3) ≠
      Jirawiki.utf8Decode [91, 120, 93] := by
  decide

/-- C9 amended.  Token `startIdx`/`endIdx` are byte offsets into the
whitespace-trimmed line: byte-based slicing with the token's boundaries
recovers the matched span even on a multi-byte line, and the boundaries
agree with rune indices only when the text before the token is ASCII (as on
the line `[x]`). -/
theorem tkt_C9_amended :
    Jirawiki.tokenizeE [227, 129, 130, 91, 120, 93] =
      Except.ok [⟨[91, 120, 93], Jirawiki.Fam.refLink, none, 3, 5⟩] ∧
    (([227, 129, 130, 91, 120, 93] : Jirawiki.GoStr).drop 3).take (5 + 1 - 3) =
      [91, 120, 93] ∧
    Jirawiki.tokenizeE (Jirawiki.asciiB "[x]") =
      Except.ok [⟨[91, 120, 93], Jirawiki.Fam.refLink, none, 0, 2⟩] ∧
    ((Jirawiki.utf8Decode (Jirawiki.asciiB "[x]")).drop 0).take (2 + 1 - 0) =
      Jirawiki.utf8Decode [91, 120, 93] := by
  decide

/-- The trailing-newline step: appending `\n` when absent always yields a
newline-terminated result. -/
theorem tailMatch_post (u : Jirawiki.GoStr) :
    (if Tkt.tailMatch [10] u = true then u else u ++ [10]) ≠ [] ∧
    Tkt.tailMatch [10]
      (if Tkt.tailMatch [10] u = true then u else u ++ [10]) = true := by
  by_cases h : Tkt.tailMatch [10] u = true
  · rw [if_pos h]
    refine ⟨?_, h⟩
    intro he
    subst he
    exact Bool.noConfusion h
  · rw [if_neg h]
    constructor
    · simp
    · unfold Tkt.tailMatch
      rw [List.reverse_append]
      simp [Tkt.leadMatch]

/-- C10.  Whenever the tokenizing wiki-markup-to-Markdown parser returns (no
panic, no divergence), its output ends with a newline byte and in particular
is never empty: the final step of `secondPass` appends `\n` whenever the
rendered result does not already end with one. -/
theorem tkt_C10_trailing_newline (input s : Jirawiki.GoStr)
    (h : Jirawiki.ParseE input = Except.ok s) :
    s ≠ [] ∧ Tkt.tailMatch [10] s = true := by
  unfold Jirawiki.ParseE Jirawiki.secondPassE at h
  cases hl : Jirawiki.secondPassLoop (Jirawiki.firstPass input)
      (Jirawiki.fuelFor (Jirawiki.firstPass input)) 0 [] with
  | error e =>
    rw [hl] at h
    exact Except.noConfusion h
  | ok r =>
    rw [hl] at h
    have hs : s = (if Tkt.tailMatch [10] (Jirawiki.unescapeAll r) = true
        then Jirawiki.unescapeAll r else Jirawiki.unescapeAll r ++ [10]) := by
      have := h
      simp only [Except.bind, bind, pure, Except.pure] at this
      exact (Except.ok.injEq _ _ ▸ this).symm
    rw [hs]
    exact tailMatch_post (Jirawiki.unescapeAll r)

/-- Witness for C10 at the empty input: `Parse "" = "\n"`. -/
theorem tkt_C10_trailing_newline_witness :
    Jirawiki.ParseE [] = Except.ok [10] ∧
    (([10] : Jirawiki.GoStr) ≠ [] ∧ Tkt.tailMatch [10] [10] = true) :=
  ⟨by decide, tkt_C10_trailing_newline [] [10] (by decide)⟩
